import Mathlib

/-!
# MCA spectrum scripts: calibration loading, data-section parsing, histogram construction

A shallow embedding of the three ROOT scripts `main.C`, `createSpectrumHistogram.C` and
`createSpectrumHistogramcopy.C`.

* A `std::string` is a `List Char`.
* A `std::ifstream` is an `Option (List (List Char))`: `none` when the file cannot be opened,
  otherwise the lines that successive `std::getline` calls return.
* A C++ `int` is an `Int` in the range `[-2^31, 2^31)`; conversions into `int` wrap modulo `2^32`.
* A C++ `double` is the type `Double` below (IEEE-754 binary64 with round-to-nearest-even).
* `std::cerr` is a list of `Diag` values, one per message written.
-/

namespace MCA

/-! ## IEEE-754 binary64 -/

/-- A C++ `double`. `fin neg m e` is the finite value `(-1)^neg * m * 2^e`; in canonical form
either `2^52 ≤ m < 2^53` and `-1074 ≤ e ≤ 971` (normal), or `m < 2^52` and `e = -1074`
(zero and subnormal). -/
inductive Double where
  | nan
  | inf (neg : Bool)
  | fin (neg : Bool) (m : Nat) (e : Int)
  deriving DecidableEq, Repr

namespace Double

/-- Numerator and denominator of `num / (den * 2^e)`. -/
def scale (num den : Nat) (e : Int) : Nat × Nat :=
  if 0 ≤ e then (num, den * 2 ^ e.toNat) else (num * 2 ^ (-e).toNat, den)

/-- Auxiliary for `ilog2`, with fuel. -/
def ilog2Aux : Nat → Nat → Nat
  | 0, _ => 0
  | fuel + 1, n => if n < 2 then 0 else ilog2Aux fuel (n / 2) + 1

/-- Position of the highest set bit: `2^(ilog2 n) ≤ n < 2^(ilog2 n + 1)` for `n > 0`. -/
def ilog2 (n : Nat) : Nat := ilog2Aux n n

/-- Round the exact value `(-1)^neg * (num / den) * 2^x` (with `den > 0`) to the nearest double,
ties to even; magnitudes that round beyond the largest finite double become infinite. -/
def round (neg : Bool) (num den : Nat) (x : Int) : Double :=
  if num = 0 then fin neg 0 (-1074)
  else
    let e0 : Int := (ilog2 num : Int) - (ilog2 den : Int) - 52 + x
    let s0 := scale num den (e0 - x)
    let e1 : Int := if s0.1 / s0.2 < 2 ^ 52 then e0 - 1 else e0
    let e : Int := max e1 (-1074)
    let s := scale num den (e - x)
    let q := s.1 / s.2
    let r := s.1 % s.2
    let q1 := if s.2 < 2 * r ∨ (2 * r = s.2 ∧ q % 2 = 1) then q + 1 else q
    let m := if q1 = 2 ^ 53 then 2 ^ 52 else q1
    let e2 := if q1 = 2 ^ 53 then e + 1 else e
    if 971 < e2 then inf neg else fin neg m e2

/-- The double nearest to `(-1)^neg * mant * 10^ex`, as `strtod` computes it. -/
def ofDecimal (neg : Bool) (mant : Nat) (ex : Int) : Double :=
  if 0 ≤ ex then round neg (mant * 10 ^ ex.toNat) 1 0
  else round neg mant (10 ^ (-ex).toNat) 0

/-- Conversion `int → double` (exact for every 32-bit integer). -/
def ofInt (n : Int) : Double := round (decide (n < 0)) n.natAbs 1 0

/-- The literal `0.0`. -/
def zero : Double := fin false 0 (-1074)

/-- The literal `-1.0`. -/
def negOne : Double := fin true (2 ^ 52) (-52)

/-- IEEE division `x / y`. -/
def div : Double → Double → Double
  | nan, _ => nan
  | _, nan => nan
  | inf _, inf _ => nan
  | inf a, fin b _ _ => inf (a != b)
  | fin a _ _, inf b => fin (a != b) 0 (-1074)
  | fin a m1 e1, fin b m2 e2 =>
    if m2 = 0 then (if m1 = 0 then nan else inf (a != b))
    else round (a != b) m1 m2 (e1 - e2)

/-- IEEE multiplication `x * y`. -/
def mul : Double → Double → Double
  | nan, _ => nan
  | _, nan => nan
  | inf a, inf b => inf (a != b)
  | inf a, fin b m _ => if m = 0 then nan else inf (a != b)
  | fin a m _, inf b => if m = 0 then nan else inf (a != b)
  | fin a m1 e1, fin b m2 e2 => round (a != b) (m1 * m2) 1 (e1 + e2)

/-- The integer `k` with `(-1)^neg * m * 2^e = k * 2^emin`, for `emin ≤ e`. -/
def signedAt (neg : Bool) (m : Nat) (e emin : Int) : Int :=
  if neg then -((m * 2 ^ (e - emin).toNat : Nat) : Int) else ((m * 2 ^ (e - emin).toNat : Nat) : Int)

/-- IEEE negation `-x`. -/
def neg : Double → Double
  | nan => nan
  | inf a => inf (!a)
  | fin a m e => fin (!a) m e

/-- IEEE addition `x + y`: adding a zero to a non-zero value leaves it as it is; otherwise the
exact sum is rounded to nearest, and an exact zero sum is `+0.0` unless both operands are
negative zeros. -/
def add : Double → Double → Double
  | nan, _ => nan
  | _, nan => nan
  | inf a, inf b => if a = b then inf a else nan
  | inf a, fin _ _ _ => inf a
  | fin _ _ _, inf b => inf b
  | fin a m1 e1, fin b m2 e2 =>
    if m1 = 0 ∧ m2 = 0 then fin (a && b) 0 (-1074)
    else if m2 = 0 then fin a m1 e1
    else if m1 = 0 then fin b m2 e2
    else if signedAt a m1 e1 (min e1 e2) + signedAt b m2 e2 (min e1 e2) = 0 then
      fin false 0 (-1074)
    else
      round (decide (signedAt a m1 e1 (min e1 e2) + signedAt b m2 e2 (min e1 e2) < 0))
        (signedAt a m1 e1 (min e1 e2) + signedAt b m2 e2 (min e1 e2)).natAbs 1 (min e1 e2)

/-- IEEE subtraction `x - y`. -/
def sub (x y : Double) : Double := add x (neg y)

/-- Compare the magnitudes `m1 * 2^e1` and `m2 * 2^e2`. -/
def cmpMag (m1 : Nat) (e1 : Int) (m2 : Nat) (e2 : Int) : Ordering :=
  if m1 = 0 then (if m2 = 0 then Ordering.eq else Ordering.lt)
  else if m2 = 0 then Ordering.gt
  else if (ilog2 m1 : Int) + e1 < (ilog2 m2 : Int) + e2 then Ordering.lt
  else if (ilog2 m2 : Int) + e2 < (ilog2 m1 : Int) + e1 then Ordering.gt
  else compare (m1 * 2 ^ (e1 - min e1 e2).toNat) (m2 * 2 ^ (e2 - min e1 e2).toNat)

/-- IEEE comparison `x <= y`: false whenever an operand is NaN. -/
def le : Double → Double → Bool
  | nan, _ => false
  | _, nan => false
  | inf a, inf b => a || !b
  | inf a, fin _ _ _ => a
  | fin _ _ _, inf b => !b
  | fin false m1 e1, fin false m2 e2 => cmpMag m1 e1 m2 e2 != Ordering.gt
  | fin true m1 e1, fin true m2 e2 => cmpMag m2 e2 m1 e1 != Ordering.gt
  | fin true _ _, fin false _ _ => true
  | fin false m1 _, fin true m2 _ => decide (m1 = 0) && decide (m2 = 0)

/-- IEEE comparison `x < y`: false whenever an operand is NaN. -/
def lt : Double → Double → Bool
  | nan, _ => false
  | _, nan => false
  | x, y => !(le y x)

/-- IEEE comparison `x == y`: false whenever an operand is NaN, and `-0.0 == 0.0`. -/
def eq (x y : Double) : Bool := le x y && le y x

/-- Neither NaN nor infinite. -/
def isFinite : Double → Bool
  | fin _ _ _ => true
  | _ => false

end Double

/-! ## Strings, `std::stoi` and the data-section reader -/

/-- `std::isspace` in the "C" locale: space, `\t`, `\n`, `\v`, `\f`, `\r`. -/
def isspace (c : Char) : Bool :=
  c.toNat = 32 || (9 ≤ c.toNat && c.toNat ≤ 13)

/-- `std::isdigit`: the characters `0` to `9`. -/
def isdigit (c : Char) : Bool :=
  48 ≤ c.toNat && c.toNat ≤ 57

/-- Value of a decimal digit character. -/
def digitVal (c : Char) : Nat := c.toNat - 48

/-- `s.find(pat)`: position of the first occurrence of `pat` in `s`, `none` for `npos`. -/
def find : List Char → List Char → Option Nat
  | [], pat => if pat.isEmpty then some 0 else none
  | c :: cs, pat =>
    if pat.isPrefixOf (c :: cs) then some 0 else (find cs pat).map (· + 1)

/-- Outcome of a call of `std::stoi`: the returned `int`, or the exception thrown. -/
inductive StoiResult where
  | ok (v : Int)
  | invalid_argument
  | out_of_range
  deriving DecidableEq, Repr

/-- Positional value of a run of decimal digit characters, most significant first. -/
def digitsValue (ds : List Char) : Nat :=
  ds.foldl (fun acc c => acc * 10 + digitVal c) 0

/-- The digits and the range check of `std::stoi`: the longest run of digits at the start of
`body`, read with the sign `neg`. No digit throws `invalid_argument`; a value outside the range
of `int` throws `out_of_range`. -/
def stoiDigits (neg : Bool) (body : List Char) : StoiResult :=
  if body.takeWhile isdigit = [] then StoiResult.invalid_argument
  else if neg then
    (if 2147483648 < digitsValue (body.takeWhile isdigit) then StoiResult.out_of_range
      else StoiResult.ok (-(digitsValue (body.takeWhile isdigit) : Int)))
  else
    (if 2147483647 < digitsValue (body.takeWhile isdigit) then StoiResult.out_of_range
      else StoiResult.ok (digitsValue (body.takeWhile isdigit) : Int))

/-- The sign of `std::stoi`: one optional `-` or `+` before the digits. -/
def stoiSign (s : List Char) : StoiResult :=
  if s.head? = some '-' then stoiDigits true s.tail
  else if s.head? = some '+' then stoiDigits false s.tail
  else stoiDigits false s

/-- `std::stoi(str)` (base 10, no position argument): `strtol` skips leading white space, takes
an optional sign and the longest run of digits, and ignores whatever follows. -/
def stoi (str : List Char) : StoiResult :=
  stoiSign (str.dropWhile isspace)

/-- The `while (std::getline(infile, line))` loop shared by `createHistogramFromFile`
(main.C lines 77-96), `createSpectrumHistogram` (lines 29-53) and `createSpectrumHistogramcopy`
(lines 102-128). Arguments: the lines still to be read, `readingData` and `counts`; the result is
`counts` when the loop ends. -/
def readDataSection : List (List Char) → Bool → List Int → List Int
  | [], _, counts => counts
  | line :: rest, readingData, counts =>
    if (find line "<<DATA>>".toList).isSome then
      readDataSection rest true counts
    else if readingData && (find line "<<".toList).isSome && (find line ">>".toList).isSome then
      counts
    else if readingData then
      match stoi line with
      | StoiResult.ok v => readDataSection rest readingData (counts ++ [v])
      | StoiResult.invalid_argument => readDataSection rest readingData counts
      | StoiResult.out_of_range => readDataSection rest readingData counts
    else readDataSection rest readingData counts

/-! ## Diagnostics and the ROOT histogram -/

/-- One message written to `std::cerr`. -/
inductive Diag where
  /-- "エラー: キャリブレーションファイルを開けませんでした" (loadCalibrationData). -/
  | calibrationFileNotOpened
  /-- "警告: エネルギー値を読み込めませんでした", with the offending line. -/
  | energyNotRead (line : List Char)
  /-- "警告: '=' 記号が見つかりませんでした", with the offending line. -/
  | equalsNotFound (line : List Char)
  /-- "警告: チャンネル値を読み込めませんでした", with the offending line. -/
  | channelNotRead (line : List Char)
  /-- "エラー: 無効なキャリブレーションデータのインデックス", with the index
  (calculateConversionFactor). -/
  | invalidCalibrationDataIndex (selectedIndex : Int)
  /-- "エラー: 無効なキャリブレーションインデックスです。最初のキャリブレーションを使用します。" -/
  | invalidIndexUsingFirst
  /-- "エラー: 無効な変換係数です。" -/
  | invalidConversionFactor
  /-- "エラー: ファイルを開けませんでした" (the data file). -/
  | fileNotOpened
  /-- "エラー: <<DATA>> セクション内にデータが見つかりませんでした。" -/
  | noDataInSection
  deriving DecidableEq, Repr

/-- An input file stream: `none` when `is_open()` is false, otherwise the lines that successive
`std::getline` calls return. -/
abbrev ifstream := Option (List (List Char))

/-- Conversion of a `size_t` into `int`: reduction modulo `2^32` into `[-2^31, 2^31)`. -/
def toInt (n : Nat) : Int :=
  if n % 4294967296 < 2147483648 then (n % 4294967296 : Nat) else (n % 4294967296 : Nat) - 4294967296

/-- The part of ROOT's `TH1I` the scripts use: name, title, the x axis (`fNbins`, `fXmin`,
`fXmax`), the bin contents `fArray` (cell 0 is the underflow bin, cells 1 to `fNbins` are the
bins, cell `fNbins + 1` is the overflow bin) and the statistics-box flag. -/
structure TH1I where
  fName : String
  fTitle : String
  fNbins : Int
  fXmin : Double
  fXmax : Double
  fArray : List Int
  fStats : Bool
  deriving DecidableEq, Repr

namespace TH1I

/-- `new TH1I(name, title, nbins, xlow, xup)`: ROOT replaces `nbins <= 0` by `1`, sets the axis
and allocates `nbins + 2` cells holding 0. -/
def new (name title : String) (nbins : Int) (xlow xup : Double) : TH1I :=
  let n : Int := if nbins ≤ 0 then 1 else nbins
  { fName := name, fTitle := title, fNbins := n, fXmin := xlow, fXmax := xup,
    fArray := List.replicate (n.toNat + 2) 0, fStats := true }

/-- `hist->SetBinContent(bin, content)` on a histogram whose axis cannot be extended: a cell
index outside `0 .. fNbins + 1` is ignored. The `int` content passes through `Double_t` and back
to `Int_t` unchanged. -/
def SetBinContent (h : TH1I) (bin : Int) (content : Int) : TH1I :=
  if 0 ≤ bin ∧ bin < h.fArray.length then { h with fArray := h.fArray.set bin.toNat content }
  else h

/-- `hist->GetBinContent(bin)`: out-of-range indices are clamped to the under/overflow cell. -/
def GetBinContent (h : TH1I) (bin : Int) : Int :=
  if bin < 0 then h.fArray.getD 0 0
  else if (h.fArray.length : Int) ≤ bin then h.fArray.getD (h.fArray.length - 1) 0
  else h.fArray.getD bin.toNat 0

/-- `hist->GetXaxis()->GetBinLowEdge(bin)` for an axis of equal bins: ROOT computes
`binwidth = (fXmax - fXmin) / Double_t(fNbins)` and returns `fXmin + (bin - 1) * binwidth`. -/
def GetBinLowEdge (h : TH1I) (bin : Int) : Double :=
  Double.add h.fXmin
    (Double.mul (Double.ofInt (bin - 1))
      (Double.div (Double.sub h.fXmax h.fXmin) (Double.ofInt h.fNbins)))

/-- `hist->GetNbinsX()`. -/
def GetNbinsX (h : TH1I) : Int := h.fNbins

/-- `hist->SetStats(stats)`. -/
def SetStats (h : TH1I) (stats : Bool) : TH1I := { h with fStats := stats }

end TH1I

/-- The loop `for (int i = 0; i < nbins; ++i) hist->SetBinContent(i + 1, counts[i]);`. -/
def fillBins (hist : TH1I) (counts : List Int) (nbins : Int) : TH1I :=
  (List.range nbins.toNat).foldl
    (fun (h : TH1I) (i : Nat) => h.SetBinContent ((i : Int) + 1) (counts.getD i 0)) hist

/-- `createHistogramFromFile` of main.C (lines 66-127). The result is the returned pointer
(`none` for `nullptr`) and the messages written to `std::cerr`. -/
def createHistogramFromFile (infile : ifstream) (useCalibration : Bool)
    (conversionFactor : Double) : Option TH1I × List Diag :=
  match infile with
  | none => (none, [Diag.fileNotOpened])
  | some lines =>
    let counts := readDataSection lines false []
    if counts.isEmpty then (none, [Diag.noDataInSection])
    else
      let nbins : Int := toInt counts.length
      let xlow : Double := if useCalibration then Double.mul Double.zero conversionFactor
        else Double.zero
      let xhigh : Double := if useCalibration then Double.mul (Double.ofInt nbins) conversionFactor
        else Double.ofInt nbins
      let xAxisTitle : String := if useCalibration then "Energy (keV)" else "Channel"
      let hist := TH1I.new "spectrum" ("MCA Spectrum;" ++ xAxisTitle ++ ";Counts") nbins xlow xhigh
      let hist := fillBins hist counts nbins
      let hist := hist.SetStats false
      (some hist, [])

/-- `createSpectrumHistogram` of createSpectrumHistogram.C, up to the filled histogram that is
then drawn, fitted and printed (`none` when the script returns early). -/
def createSpectrumHistogram (infile : ifstream) : Option TH1I × List Diag :=
  match infile with
  | none => (none, [Diag.fileNotOpened])
  | some lines =>
    let counts := readDataSection lines false []
    if counts.isEmpty then (none, [Diag.noDataInSection])
    else
      let nbins : Int := toInt counts.length
      let hist := TH1I.new "spectrum" "MCA Spectrum;Channel;Counts" nbins Double.zero
        (Double.ofInt nbins)
      let hist := fillBins hist counts nbins
      (some hist, [])

/-! ## Formatted extraction from a `std::stringstream` -/

/-- A `std::stringstream` opened on a line: the characters not yet read and the two state bits
the scripts depend on. -/
structure stringstream where
  buf : List Char
  eofbit : Bool
  failbit : Bool
  deriving DecidableEq, Repr

namespace stringstream

/-- `std::stringstream ss(line)`. -/
def init (line : List Char) : stringstream :=
  { buf := line, eofbit := false, failbit := false }

/-- `ss.good()`. -/
def good (ss : stringstream) : Bool := !ss.eofbit && !ss.failbit

/-- The input sentry of a formatted extraction: a stream that is not `good()` gets `failbit`;
otherwise leading white space is skipped, and reaching the end sets `eofbit` and `failbit`. The
Boolean tells whether the extraction may proceed. -/
def sentry (ss : stringstream) : stringstream × Bool :=
  if !ss.good then ({ ss with failbit := true }, false)
  else if ss.buf.dropWhile isspace = [] then
    ({ buf := [], eofbit := true, failbit := true }, false)
  else ({ ss with buf := ss.buf.dropWhile isspace }, true)

/-- `ss >> str` for a `std::string`: after the sentry, the characters up to the next white space
or the end of the stream (reaching the end sets `eofbit`). -/
def extractString (ss : stringstream) : stringstream × List Char :=
  match ss.sentry with
  | (ss1, false) => (ss1, [])
  | (ss1, true) =>
    let tok := ss1.buf.takeWhile (fun c => !isspace c)
    let rest := ss1.buf.dropWhile (fun c => !isspace c)
    ({ buf := rest, eofbit := decide (rest = []), failbit := decide (tok = []) }, tok)

end stringstream

/-- What the floating-point scanner of `num_get` has accumulated: the sign, the mantissa digits
read as one integer `mant` with `fracDigits` of them after the decimal point, the exponent sign
and value, and the flags of the scan. `afterE` holds right after the exponent letter, where one
sign character is accepted. -/
structure FloatAcc where
  neg : Bool
  mant : Nat
  fracDigits : Nat
  foundMantissa : Bool
  foundDec : Bool
  foundSci : Bool
  afterE : Bool
  expNeg : Bool
  expVal : Nat
  expDigits : Bool
  deriving DecidableEq, Repr

namespace FloatAcc

/-- The accumulator before the first character, for a number of the given sign. -/
def start (neg : Bool) : FloatAcc :=
  { neg := neg, mant := 0, fracDigits := 0, foundMantissa := false, foundDec := false,
    foundSci := false, afterE := false, expNeg := false, expVal := 0, expDigits := false }

/-- Accept one decimal digit: it extends the exponent once the exponent letter has been read,
and the mantissa before that. -/
def pushDigit (acc : FloatAcc) (d : Nat) : FloatAcc :=
  if acc.foundSci then
    { acc with expVal := acc.expVal * 10 + d, expDigits := true, foundMantissa := true,
               afterE := false }
  else
    { acc with mant := acc.mant * 10 + d,
               fracDigits := if acc.foundDec then acc.fracDigits + 1 else acc.fracDigits,
               foundMantissa := true, afterE := false }

/-- The conversion of the accumulated characters by `strtod`: it fails (`none`) when there is no
mantissa digit or an exponent letter without exponent digits, because `strtod` then does not
consume the whole accumulated text; otherwise it is the correctly rounded value of
`mant * 10^(exponent - fracDigits)`. -/
def convert (acc : FloatAcc) : Option Double :=
  if !acc.foundMantissa || (acc.foundSci && !acc.expDigits) then none
  else
    some (Double.ofDecimal acc.neg acc.mant
      ((if acc.expNeg then -(acc.expVal : Int) else (acc.expVal : Int)) - (acc.fracDigits : Int)))

end FloatAcc

/-- The leading-zeros loop of the scanner: zeros are consumed and count as mantissa digits. -/
def scanZeros : List Char → FloatAcc → List Char × FloatAcc
  | [], acc => ([], acc)
  | c :: cs, acc =>
    if c = '0' then scanZeros cs { acc with foundMantissa := true } else (c :: cs, acc)

/-- The main loop of the scanner ("C" locale): digits; one decimal point, before any exponent;
one exponent letter `e` or `E`, after at least one mantissa digit, optionally followed by one
sign. The first character that fits nowhere ends the scan and stays in the stream. -/
def scanFloat : List Char → FloatAcc → List Char × FloatAcc
  | [], acc => ([], acc)
  | c :: cs, acc =>
    if acc.afterE && (c = '+' || c = '-') then
      scanFloat cs { acc with afterE := false, expNeg := decide (c = '-') }
    else if isdigit c then scanFloat cs (acc.pushDigit (digitVal c))
    else if c = '.' && !acc.foundDec && !acc.foundSci then
      scanFloat cs { acc with foundDec := true, afterE := false }
    else if (c = 'e' || c = 'E') && !acc.foundSci && acc.foundMantissa then
      scanFloat cs { acc with foundSci := true, afterE := true }
    else (c :: cs, acc)

/-- The whole scan: one optional sign, the leading zeros, the main loop. The result is the
unread rest of the stream and the accumulator. -/
def scanSigned (s : List Char) : List Char × FloatAcc :=
  if s.head? = some '-' then
    scanFloat (scanZeros s.tail (FloatAcc.start true)).1 (scanZeros s.tail (FloatAcc.start true)).2
  else if s.head? = some '+' then
    scanFloat (scanZeros s.tail (FloatAcc.start false)).1
      (scanZeros s.tail (FloatAcc.start false)).2
  else scanFloat (scanZeros s (FloatAcc.start false)).1 (scanZeros s (FloatAcc.start false)).2

/-- `ss >> x` for a `double`, as libstdc++ implements it in the "C" locale: after the sentry, an
optional sign, the leading zeros and the main scan; the accumulated text is converted by
`strtod`. A failed conversion, or a result of infinite magnitude, sets `failbit`; stopping at the
end of the stream sets `eofbit`. The value is `none` exactly when `failbit` is set. -/
def stringstream.extractDouble (ss : stringstream) : stringstream × Option Double :=
  match ss.sentry with
  | (ss1, false) => (ss1, none)
  | (ss1, true) =>
    let r := scanSigned ss1.buf
    match r.2.convert with
    | some (Double.fin s m e) =>
      ({ buf := r.1, eofbit := decide (r.1 = []), failbit := false }, some (Double.fin s m e))
    | _ => ({ buf := r.1, eofbit := decide (r.1 = []), failbit := true }, none)

/-! ## Calibration -/

/-- The struct `CalibrationData`. -/
structure CalibrationData where
  channel : Double
  energy : Double
  deriving DecidableEq, Repr

/-- The body of the `while (std::getline(file, line))` loop of `loadCalibrationData`
(main.C lines 28-47) for one line: the calibration list and the messages after it. -/
def loadCalibrationLine (line : List Char) (calibrations : List CalibrationData)
    (log : List Diag) : List CalibrationData × List Diag :=
  if line.isEmpty || line.head? = some '#' then (calibrations, log)
  else
    let ss := stringstream.init line
    match ss.extractDouble with
    | (ss1, some channel) =>
      let r := ss1.extractString
      if !r.1.failbit && r.2 = "=".toList then
        match r.1.extractDouble with
        | (_, some energy) =>
          (calibrations ++ [{ channel := channel, energy := energy }], log)
        | (_, none) => (calibrations, log ++ [Diag.energyNotRead line])
      else (calibrations, log ++ [Diag.equalsNotFound line])
    | (_, none) => (calibrations, log ++ [Diag.channelNotRead line])

/-- The `while (std::getline(file, line))` loop of `loadCalibrationData`. -/
def loadCalibrationLoop : List (List Char) → List CalibrationData → List Diag →
    List CalibrationData × List Diag
  | [], calibrations, log => (calibrations, log)
  | line :: rest, calibrations, log =>
    let r := loadCalibrationLine line calibrations log
    loadCalibrationLoop rest r.1 r.2

/-- `loadCalibrationData` (identical in main.C and createSpectrumHistogramcopy.C, lines 19-52).
The result is the returned `bool`, the list `calibrations` after the call and the messages
written to `std::cerr`. -/
def loadCalibrationData (file : ifstream) (calibrations : List CalibrationData) :
    Bool × List CalibrationData × List Diag :=
  match file with
  | none => (false, calibrations, [Diag.calibrationFileNotOpened])
  | some lines =>
    let r := loadCalibrationLoop lines calibrations []
    (true, r.1, r.2)

/-- `calculateConversionFactor` (identical in main.C and createSpectrumHistogramcopy.C,
lines 55-63): the returned `double` and the messages written to `std::cerr`. -/
def calculateConversionFactor (calibrations : List CalibrationData) (selectedIndex : Int) :
    Double × List Diag :=
  if h : selectedIndex < 0 ∨ (calibrations.length : Int) ≤ selectedIndex then
    (Double.negOne, [Diag.invalidCalibrationDataIndex selectedIndex])
  else
    let selectedCalibration := calibrations.get ⟨selectedIndex.toNat, by omega⟩
    (Double.div selectedCalibration.energy selectedCalibration.channel, [])

/-! ## The calibrated scripts -/

/-- The block that picks the calibration point and computes the conversion factor
(createSpectrumHistogramcopy.C lines 76-88 with `selectedCalibrationIndex = 3`, main.C
lines 162-174 with `selectedCalibrationIndex = 0`). The result is the conversion factor with
which the script goes on, `none` when the script stops at `conversionFactor <= 0.0`. -/
def chooseConversionFactor (calibrations : List CalibrationData)
    (selectedCalibrationIndex : Int) : Option Double × List Diag :=
  let fallback : Bool :=
    decide (selectedCalibrationIndex < 0 ∨ (calibrations.length : Int) ≤ selectedCalibrationIndex)
  let index : Int := if fallback then 0 else selectedCalibrationIndex
  let d1 : List Diag := if fallback then [Diag.invalidIndexUsingFirst] else []
  let r := calculateConversionFactor calibrations index
  if Double.le r.1 Double.zero then (none, d1 ++ r.2 ++ [Diag.invalidConversionFactor])
  else (some r.1, d1 ++ r.2)

/-- What a calibrated script hands to the drawing and fitting calls when it gets that far. -/
structure Rendered where
  conversionFactor : Double
  hist : TH1I
  deriving DecidableEq, Repr

/-- `createSpectrumHistogramcopy` of createSpectrumHistogramcopy.C, up to the filled histogram
that is then drawn, fitted and printed; `none` when the script returns early. -/
def createSpectrumHistogramcopy (calibrationFile infile : ifstream) :
    Option Rendered × List Diag :=
  match loadCalibrationData calibrationFile [] with
  | (false, _, d1) => (none, d1)
  | (true, calibrations, d1) =>
    match chooseConversionFactor calibrations 3 with
    | (none, d2) => (none, d1 ++ d2)
    | (some conversionFactor, d2) =>
      match infile with
      | none => (none, d1 ++ d2 ++ [Diag.fileNotOpened])
      | some lines =>
        let counts := readDataSection lines false []
        if counts.isEmpty then (none, d1 ++ d2 ++ [Diag.noDataInSection])
        else
          let nbins : Int := toInt counts.length
          let xlow : Double := Double.mul Double.zero conversionFactor
          let xhigh : Double := Double.mul (Double.ofInt nbins) conversionFactor
          let hist := TH1I.new "spectrum" "MCA Spectrum;Energy (keV);Counts" nbins xlow xhigh
          let hist := fillBins hist counts nbins
          (some { conversionFactor := conversionFactor, hist := hist }, d1 ++ d2)

/-- The statements at file scope of main.C (lines 152-199), up to the histogram handed to
`doubleGaussianFit` and drawn; `none` when the script calls `exit(1)`. -/
def main (calibrationFile infile : ifstream) : Option Rendered × List Diag :=
  match loadCalibrationData calibrationFile [] with
  | (false, _, d1) => (none, d1)
  | (true, calibrations, d1) =>
    match chooseConversionFactor calibrations 0 with
    | (none, d2) => (none, d1 ++ d2)
    | (some conversionFactor, d2) =>
      let useCalibration : Bool := false
      match createHistogramFromFile infile useCalibration conversionFactor with
      | (none, d3) => (none, d1 ++ d2 ++ d3)
      | (some hist, d3) =>
        (some { conversionFactor := conversionFactor, hist := hist }, d1 ++ d2 ++ d3)

/-! ## Vocabulary of the statements -/

/-- The line contains `<<DATA>>`: the test that starts the data section. -/
def isStartMarker (line : List Char) : Bool :=
  (find line "<<DATA>>".toList).isSome

/-- The line contains `<<` and contains `>>`: the test that ends the data section. -/
def isSectionMarker (line : List Char) : Bool :=
  (find line "<<".toList).isSome && (find line ">>".toList).isSome

/-- The number a run of decimal digit characters denotes, most significant digit first. -/
def decimalValue (ds : List Char) : Nat :=
  Nat.ofDigits 10 (ds.reverse.map digitVal)

/-- The integer denoted by an optional sign and a run of digits. -/
def signedValue (sign ds : List Char) : Int :=
  if sign = ['-'] then -(decimalValue ds : Int) else (decimalValue ds : Int)

/-- The counts a list of lines contributes: the value of each line `std::stoi` converts. -/
def countsOf (lines : List (List Char)) : List Int :=
  lines.filterMap (fun l => match stoi l with
    | StoiResult.ok v => some v
    | StoiResult.invalid_argument => none
    | StoiResult.out_of_range => none)

/-- The lines strictly after the first `<<DATA>>` line and strictly before the first subsequent
line that contains `<<` and `>>`, whatever its name. -/
def sectionUpToAnyMarker (lines : List (List Char)) : List (List Char) :=
  ((lines.dropWhile (fun l => !isStartMarker l)).drop 1).takeWhile (fun l => !isSectionMarker l)

/-- The lines strictly after the first `<<DATA>>` line and strictly before the first subsequent
line that contains `<<` and `>>` but not `<<DATA>>`, without the lines that contain
`<<DATA>>`. -/
def sectionUpToOtherMarker (lines : List (List Char)) : List (List Char) :=
  (((lines.dropWhile (fun l => !isStartMarker l)).drop 1).takeWhile
    (fun l => isStartMarker l || !isSectionMarker l)).filter (fun l => !isStartMarker l)

/-- A decimal numeral as it is written in a calibration file: an optional sign, the digits
before the decimal point, optionally a point with the digits after it, and optionally an exponent
(the letter, an optional sign, the digits). -/
structure Numeral where
  sign : List Char
  intDigits : List Char
  frac : Option (List Char)
  exp : Option (Char × List Char × List Char)

namespace Numeral

/-- The digits after the decimal point. -/
def fracDigits (n : Numeral) : List Char := n.frac.getD []

/-- The numeral is written correctly: signs are empty, `+` or `-`; digit runs hold digits only;
the mantissa has at least one digit; an exponent has the letter `e` or `E` and at least one
digit. -/
def WellFormed (n : Numeral) : Prop :=
  (n.sign = [] ∨ n.sign = ['+'] ∨ n.sign = ['-'])
  ∧ (∀ c ∈ n.intDigits, isdigit c = true)
  ∧ (∀ c ∈ n.fracDigits, isdigit c = true)
  ∧ n.intDigits ++ n.fracDigits ≠ []
  ∧ (∀ x, n.exp = some x →
      (x.1 = 'e' ∨ x.1 = 'E') ∧ (x.2.1 = [] ∨ x.2.1 = ['+'] ∨ x.2.1 = ['-'])
      ∧ (∀ c ∈ x.2.2, isdigit c = true) ∧ x.2.2 ≠ [])

/-- The characters of the fraction: the point and the digits after it. -/
def fracText (n : Numeral) : List Char :=
  match n.frac with
  | none => []
  | some f => '.' :: f

/-- The characters of the exponent: the letter, the sign, the digits. -/
def expText (n : Numeral) : List Char :=
  match n.exp with
  | none => []
  | some x => x.1 :: (x.2.1 ++ x.2.2)

/-- The numeral as text. -/
def text (n : Numeral) : List Char :=
  n.sign ++ n.intDigits ++ n.fracText ++ n.expText

/-- The power of ten the exponent part denotes (0 without an exponent). -/
def expValue (n : Numeral) : Int :=
  match n.exp with
  | none => 0
  | some x => signedValue x.2.1 x.2.2

/-- The `double` the numeral denotes: the double nearest to
`± (digits before and after the point) * 10^(exponent - number of digits after the point)`. -/
def toDouble (n : Numeral) : Double :=
  Double.ofDecimal (decide (n.sign = ['-'])) (decimalValue (n.intDigits ++ n.fracDigits))
    (n.expValue - (n.fracDigits.length : Int))

end Numeral

/-- The accumulator after a run of digit characters. -/
def FloatAcc.pushDigits (acc : FloatAcc) (ds : List Char) : FloatAcc :=
  ds.foldl (fun a c => a.pushDigit (digitVal c)) acc

/-- The accumulator the scanner holds after the sign and the digits before the point. -/
def Numeral.intAcc (n : Numeral) : FloatAcc :=
  (FloatAcc.start (decide (n.sign = ['-']))).pushDigits n.intDigits

/-- The accumulator the scanner holds after the fraction. -/
def Numeral.fracAcc (n : Numeral) : FloatAcc :=
  match n.frac with
  | none => n.intAcc
  | some f => FloatAcc.pushDigits { n.intAcc with foundDec := true, afterE := false } f

/-- The accumulator the scanner holds after the exponent. -/
def Numeral.expAcc (n : Numeral) : FloatAcc :=
  match n.exp with
  | none => n.fracAcc
  | some x =>
    FloatAcc.pushDigits
      { n.fracAcc with foundSci := true, afterE := false, expNeg := decide (x.2.1 = ['-']) }
      x.2.2

/-- The numeral has the shape the scanner reads character by character: signs are empty, `+`
or `-`; digit runs hold digits only, and may be empty; an exponent stands only after a mantissa
digit and has the letter `e` or `E`. -/
def Numeral.Shaped (n : Numeral) : Prop :=
  (n.sign = [] ∨ n.sign = ['+'] ∨ n.sign = ['-'])
  ∧ (∀ c ∈ n.intDigits, isdigit c = true)
  ∧ (∀ c ∈ n.fracDigits, isdigit c = true)
  ∧ (∀ x, n.exp = some x →
      n.intDigits ++ n.fracDigits ≠ [] ∧ (x.1 = 'e' ∨ x.1 = 'E')
      ∧ (x.2.1 = [] ∨ x.2.1 = ['+'] ∨ x.2.1 = ['-']) ∧ (∀ c ∈ x.2.2, isdigit c = true))

/-- The numeral has a mantissa digit and, if it has an exponent, an exponent digit. -/
def Numeral.Complete (n : Numeral) : Prop :=
  n.intDigits ++ n.fracDigits ≠ [] ∧ ∀ x, n.exp = some x → x.2.2 ≠ []

/-- The scanner, having read the text of `n`, reads nothing of `rest`: `rest` is empty or starts
with a character that extends no part of `n`. -/
def Numeral.stopsAt (n : Numeral) (rest : List Char) : Prop :=
  ∀ c, rest.head? = some c →
    isdigit c = false
    ∧ (c = '.' → n.frac.isSome = true ∨ n.exp.isSome = true)
    ∧ (c = 'e' ∨ c = 'E' → n.exp.isSome = true ∨ n.intDigits ++ n.fracDigits = [])
    ∧ (c = '+' ∨ c = '-' →
        (n.sign = [] → n.intDigits = [] → n.frac = none → False)
        ∧ (∀ x, n.exp = some x → x.2.1 = [] → x.2.2 = [] → False))

/-- The rest of a line does not continue the well-formed numeral `n`: it is empty or starts with
a character that is no digit, no decimal point unless `n` has a point or an exponent already, and
no exponent letter unless `n` has an exponent already. -/
def Numeral.endsAt (n : Numeral) (rest : List Char) : Prop :=
  ∀ c, rest.head? = some c →
    isdigit c = false
    ∧ (c = '.' → n.frac.isSome = true ∨ n.exp.isSome = true)
    ∧ (c = 'e' ∨ c = 'E' → n.exp.isSome = true)

/-- The accumulator the scanner holds after an exponent whose digits may be missing. -/
def Numeral.sciAcc (n : Numeral) : FloatAcc :=
  match n.exp with
  | none => n.fracAcc
  | some x =>
    FloatAcc.pushDigits
      { n.fracAcc with foundSci := true, afterE := decide (x.2.1 = []),
                       expNeg := decide (x.2.1 = ['-']) }
      x.2.2

/-- The line has the form `loadCalibrationData` reads a point from, and `p` is that point:
optional white space, the channel numeral, optional white space, the equals sign, white space,
the energy numeral, and a rest that does not continue the energy numeral; both numerals are well
formed and denote finite doubles. -/
def IsPointLine (line : List Char) (p : CalibrationData) : Prop :=
  ∃ (ws0 ws1 ws2 tail : List Char) (chan en : Numeral),
    line = ws0 ++ chan.text ++ ws1 ++ ['='] ++ ws2 ++ en.text ++ tail
    ∧ (∀ c ∈ ws0, isspace c = true) ∧ (∀ c ∈ ws1, isspace c = true)
    ∧ (∀ c ∈ ws2, isspace c = true) ∧ ws2 ≠ []
    ∧ chan.WellFormed ∧ en.WellFormed
    ∧ chan.toDouble.isFinite = true ∧ en.toDouble.isFinite = true
    ∧ en.endsAt tail
    ∧ p = { channel := chan.toDouble, energy := en.toDouble }

/-- The rest of a line after a numeral does not continue the numeral: it is empty or starts
with a character that is no digit, no point and no exponent letter. -/
def endsNumber (rest : List Char) : Prop :=
  ∀ c, rest.head? = some c → isdigit c = false ∧ c ≠ '.' ∧ c ≠ 'e' ∧ c ≠ 'E'

/-- The text cannot start a number: it is empty or starts with a character that is no digit, no
sign and no point. -/
def startsNoNumber (t : List Char) : Prop :=
  ∀ c, t.head? = some c → isdigit c = false ∧ c ≠ '+' ∧ c ≠ '-' ∧ c ≠ '.'

/-- A line of a calibration file made only of blank lines, comment lines and lines of the form
`<channel> = <energy>`. -/
inductive CalLine where
  /-- A blank line: nothing, or white space only. -/
  | blank (ws : List Char)
  /-- A line starting with `#`. -/
  | comment (body : List Char)
  /-- A line `<channel> = <energy>`: the two numerals, the white space on either side of the
  equals sign, and trailing white space. -/
  | point (channel energy : Numeral) (ws1 ws2 ws3 : List Char)

namespace CalLine

/-- The characters of the line. -/
def text : CalLine → List Char
  | blank ws => ws
  | comment body => '#' :: body
  | point channel energy ws1 ws2 ws3 =>
    channel.text ++ ws1 ++ ['='] ++ ws2 ++ energy.text ++ ws3

/-- The line is written correctly: white space is white space, the equals sign has white space
on both sides, the numerals are well formed and denote finite doubles. -/
def WellFormed : CalLine → Prop
  | blank ws => ∀ c ∈ ws, isspace c = true
  | comment _ => True
  | point channel energy ws1 ws2 ws3 =>
    channel.WellFormed ∧ energy.WellFormed
    ∧ channel.toDouble.isFinite = true ∧ energy.toDouble.isFinite = true
    ∧ ws1 ≠ [] ∧ ws2 ≠ []
    ∧ (∀ c ∈ ws1, isspace c = true) ∧ (∀ c ∈ ws2, isspace c = true)
    ∧ (∀ c ∈ ws3, isspace c = true)

/-- The calibration point written on the line, if it is a `<channel> = <energy>` line. -/
def point? : CalLine → Option CalibrationData
  | blank _ => none
  | comment _ => none
  | point channel energy _ _ _ =>
    some { channel := channel.toDouble, energy := energy.toDouble }

end CalLine

/-- The white-space-delimited token at the start of a text, after leading white space. -/
def nextToken (s : List Char) : List Char :=
  (s.dropWhile isspace).takeWhile (fun c => !isspace c)

/-- The lines `loadCalibrationData` skips as malformed: the channel is no number, or the token
after the channel is not `=`, or the energy is no number. -/
inductive MalformedLine : List Char → Prop where
  /-- After optional white space the line ends, or goes on with a character that is neither
  white space nor the start of a number. -/
  | channel (ws t : List Char) (hws : ∀ c ∈ ws, isspace c = true)
      (hsp : ∀ c, t.head? = some c → isspace c = false) (ht : startsNoNumber t) :
      MalformedLine (ws ++ t)
  /-- The channel is a numeral, but the next token is not `=`: it is missing, glued to what
  follows it, or something else. -/
  | equals (ws rest : List Char) (n : Numeral) (hws : ∀ c ∈ ws, isspace c = true)
      (hn : n.WellFormed) (hrest : endsNumber rest) (htok : nextToken rest ≠ ['=']) :
      MalformedLine (ws ++ n.text ++ rest)
  /-- The channel is a numeral and the next token is `=`, but after it and optional white space
  the line ends, or goes on with a character that cannot start a number. -/
  | energy (ws0 ws1 ws2 t : List Char) (n : Numeral) (h0 : ∀ c ∈ ws0, isspace c = true)
      (hn : n.WellFormed) (h1 : ∀ c ∈ ws1, isspace c = true)
      (h2 : ∀ c ∈ ws2, isspace c = true)
      (hsp : ∀ c, t.head? = some c → isspace c = false ∧ ws2 ≠ []) (ht : startsNoNumber t) :
      MalformedLine (ws0 ++ n.text ++ ws1 ++ ['='] ++ ws2 ++ t)

/-! # Theorems -/

/-! ## Conversion factor -/

/-- C1: for an index `i` with `0 ≤ i < length`, `calculateConversionFactor` returns
`energy / channel` of the `i`-th calibration point `p` and writes no message; the rest of the
list does not enter the result. -/
theorem calculateConversionFactor_valid (calibrations : List CalibrationData) (i : Int)
    (p : CalibrationData) (h0 : 0 ≤ i) (h1 : i < calibrations.length)
    (hp : calibrations.get? i.toNat = some p) :
    calculateConversionFactor calibrations i = (Double.div p.energy p.channel, []) := by
  unfold calculateConversionFactor
  have hn : ¬ (i < 0 ∨ (calibrations.length : Int) ≤ i) := by omega
  rw [dif_neg hn]
  have hlt : i.toNat < calibrations.length := by omega
  have hget : calibrations.get ⟨i.toNat, hlt⟩ = p := by
    have := List.get?_eq_get hlt
    rw [hp] at this
    exact (Option.some.inj this).symm
  simp only [hget]

/-- Witness for C1 on a two-point list and index 1. -/
theorem calculateConversionFactor_valid_witness :
    calculateConversionFactor
        [⟨Double.ofInt 7, Double.ofInt 1⟩, ⟨Double.ofInt 4, Double.ofInt 2⟩] 1
      = (Double.div (Double.ofInt 2) (Double.ofInt 4), []) :=
  calculateConversionFactor_valid
    [⟨Double.ofInt 7, Double.ofInt 1⟩, ⟨Double.ofInt 4, Double.ofInt 2⟩] 1
    ⟨Double.ofInt 4, Double.ofInt 2⟩ (by decide) (by decide) rfl

/-- Unfolding of `loadCalibrationData` on a file that opens. -/
theorem loadCalibrationData_some (lines : List (List Char)) (cal : List CalibrationData) :
    loadCalibrationData (some lines) cal
      = (true, (loadCalibrationLoop lines cal []).1, (loadCalibrationLoop lines cal []).2) := rfl

/-- A factor that passes the check `conversionFactor <= 0.0` is greater than zero or NaN. -/
theorem Double.not_le_zero (x : Double) (h : Double.le x Double.zero = false) :
    Double.lt Double.zero x = true ∨ x = Double.nan := by
  cases x with
  | nan => exact Or.inr rfl
  | inf neg => left; cases neg <;> simp_all [Double.le, Double.lt, Double.zero]
  | fin neg m e =>
    left
    cases neg <;> simp_all [Double.le, Double.lt, Double.zero]

/-- The factor block hands on only a factor that is greater than zero or NaN. -/
theorem chooseConversionFactor_some (calibrations : List CalibrationData) (k : Int)
    (f : Double) (d : List Diag) (h : chooseConversionFactor calibrations k = (some f, d)) :
    Double.lt Double.zero f = true ∨ f = Double.nan := by
  unfold chooseConversionFactor at h
  simp only [] at h
  by_cases hle : Double.le (calculateConversionFactor calibrations
      (if decide (k < 0 ∨ (calibrations.length : Int) ≤ k) = true then 0 else k)).1
      Double.zero = true
  · rw [if_pos hle] at h
    simp at h
  · rw [if_neg hle] at h
    simp only [Prod.mk.injEq, Option.some.injEq] at h
    rw [← h.1]
    exact Double.not_le_zero _ (by simpa using hle)

set_option maxRecDepth 8000 in
/-- C3 (the code at the failing input): with the calibration file `0 = 0` the ratio is
`0.0 / 0.0`, a NaN; `NaN <= 0.0` is false, so both scripts pass the conversion-factor check and
go on to build the histogram with a factor that is not greater than zero. -/
theorem nan_factor_passes_check :
    calculateConversionFactor [⟨Double.zero, Double.zero⟩] 0 = (Double.nan, [])
    ∧ Double.le Double.nan Double.zero = false
    ∧ Double.lt Double.zero Double.nan = false
    ∧ (createSpectrumHistogramcopy (some ["0 = 0".toList])
        (some ["<<DATA>>".toList, "7".toList])).1.map (fun r => r.conversionFactor)
      = some Double.nan
    ∧ (main (some ["0 = 0".toList])
        (some ["<<DATA>>".toList, "7".toList])).1.map (fun r => r.conversionFactor)
      = some Double.nan := by
  decide

/-! ## The data section -/

/-- What `std::stoi` returns lies in the range of `int`. -/
theorem stoi_range (line : List Char) (v : Int) (h : stoi line = StoiResult.ok v) :
    -2147483648 ≤ v ∧ v ≤ 2147483647 := by
  have key : ∀ (neg : Bool) (body : List Char), stoiDigits neg body = StoiResult.ok v →
      -2147483648 ≤ v ∧ v ≤ 2147483647 := by
    intro neg body hb
    unfold stoiDigits at hb
    split at hb
    · exact absurd hb (by simp)
    · split at hb
      · split at hb
        · exact absurd hb (by simp)
        · simp only [StoiResult.ok.injEq] at hb
          omega
      · split at hb
        · exact absurd hb (by simp)
        · simp only [StoiResult.ok.injEq] at hb
          omega
  unfold stoi stoiSign at h
  split at h
  · exact key _ _ h
  · split at h
    · exact key _ _ h
    · exact key _ _ h

/-- The reader keeps every count within the range of `int`. -/
theorem readDataSection_range (lines : List (List Char)) :
    ∀ (readingData : Bool) (counts : List Int),
      (∀ c ∈ counts, -2147483648 ≤ c ∧ c ≤ 2147483647) →
      ∀ c ∈ readDataSection lines readingData counts, -2147483648 ≤ c ∧ c ≤ 2147483647 := by
  induction lines with
  | nil => intro rd counts h; simpa [readDataSection] using h
  | cons line rest ih =>
    intro rd counts h
    unfold readDataSection
    split
    · exact ih true counts h
    · split
      · exact h
      · split
        · split
          · rename_i v hv
            apply ih
            intro c hc
            rcases List.mem_append.1 hc with hc | hc
            · exact h c hc
            · rw [List.mem_singleton.1 hc]; exact stoi_range line v hv
          · exact ih _ counts h
          · exact ih _ counts h
        · exact ih _ counts h

/-- C4 (counterexample): a data section holding the line `-5` yields the count `-5`. -/
theorem negative_count_extracted :
    readDataSection ["<<DATA>>".toList, "-5".toList, "<<END>>".toList] false [] = [-5]
    ∧ ¬ (∀ c ∈ readDataSection ["<<DATA>>".toList, "-5".toList, "<<END>>".toList] false [],
          0 ≤ c) := by
  decide

/-- One step of the reader, with the two marker tests named. -/
theorem readDataSection_cons (line : List Char) (rest : List (List Char)) (readingData : Bool)
    (counts : List Int) :
    readDataSection (line :: rest) readingData counts
      = if isStartMarker line then readDataSection rest true counts
        else if readingData && isSectionMarker line then counts
        else if readingData then
          (match stoi line with
            | StoiResult.ok v => readDataSection rest readingData (counts ++ [v])
            | StoiResult.invalid_argument => readDataSection rest readingData counts
            | StoiResult.out_of_range => readDataSection rest readingData counts)
        else readDataSection rest readingData counts := by
  simp only [readDataSection, isStartMarker, isSectionMarker, Bool.and_assoc]

/-- The left fold of `digitsValue` from an arbitrary start value. -/
theorem digitsValue_foldl (ds : List Char) : ∀ acc : Nat,
    ds.foldl (fun acc c => acc * 10 + digitVal c) acc
      = acc * 10 ^ ds.length + Nat.ofDigits 10 (ds.reverse.map digitVal) := by
  induction ds with
  | nil => intro acc; simp
  | cons d ds ih =>
    intro acc
    simp only [List.foldl_cons, ih, List.length_cons, List.reverse_cons, List.map_append,
      List.map_cons, List.map_nil, Nat.ofDigits_append, Nat.ofDigits_singleton,
      List.length_map, List.length_reverse]
    ring

/-- The value `std::stoi` accumulates is the positional decimal value. -/
theorem digitsValue_eq (ds : List Char) : digitsValue ds = decimalValue ds := by
  simp [digitsValue, decimalValue, digitsValue_foldl]

/-- A run of digits followed by a non-digit is the longest digit run. -/
theorem takeWhile_isdigit_append (ds tail : List Char) (hds : ∀ c ∈ ds, isdigit c = true)
    (htail : ∀ c, tail.head? = some c → isdigit c = false) :
    (ds ++ tail).takeWhile isdigit = ds := by
  induction ds with
  | nil =>
    cases tail with
    | nil => rfl
    | cons c cs => simp [List.takeWhile_cons, htail c rfl]
  | cons d ds ih =>
    have hd : isdigit d = true := hds d (List.mem_cons_self _ _)
    simp only [List.cons_append, List.takeWhile_cons, hd, if_true]
    rw [ih (fun c hc => hds c (List.mem_cons_of_mem _ hc))]

/-- Leading white space is dropped up to the first character that is not white space. -/
theorem dropWhile_isspace_append (ws s : List Char) (hws : ∀ c ∈ ws, isspace c = true)
    (hs : ∀ c, s.head? = some c → isspace c = false) :
    (ws ++ s).dropWhile isspace = s := by
  induction ws with
  | nil =>
    cases s with
    | nil => rfl
    | cons c cs => simp [List.dropWhile_cons, hs c rfl]
  | cons w ws ih =>
    have hw : isspace w = true := hws w (List.mem_cons_self _ _)
    simp only [List.cons_append, List.dropWhile_cons, hw, if_true]
    exact ih (fun c hc => hws c (List.mem_cons_of_mem _ hc))

/-- A digit is neither white space nor a sign. -/
theorem isdigit_not_other (c : Char) (h : isdigit c = true) :
    isspace c = false ∧ c ≠ '+' ∧ c ≠ '-' := by
  simp only [isdigit, Bool.and_eq_true, decide_eq_true_eq] at h
  refine ⟨?_, ?_, ?_⟩
  · simp only [isspace, Bool.or_eq_false_iff, decide_eq_false_iff_not, Bool.and_eq_false_iff]
    omega
  · rintro rfl; revert h; decide
  · rintro rfl; revert h; decide

/-- What `std::stoi` does on a line split into white space, an optional sign, a digit run and
a tail that does not start with a digit. -/
theorem stoi_shape (ws sign ds tail : List Char)
    (hws : ∀ c ∈ ws, isspace c = true)
    (hsign : sign = [] ∨ sign = ['+'] ∨ sign = ['-'])
    (hds : ∀ c ∈ ds, isdigit c = true)
    (htail : ∀ c, tail.head? = some c → isdigit c = false)
    (hcanon : ds = [] → sign = [] →
      ∀ c, tail.head? = some c → isspace c = false ∧ c ≠ '+' ∧ c ≠ '-') :
    stoi (ws ++ sign ++ ds ++ tail)
      = if ds = [] then StoiResult.invalid_argument
        else if -2147483648 ≤ signedValue sign ds ∧ signedValue sign ds ≤ 2147483647
          then StoiResult.ok (signedValue sign ds)
        else StoiResult.out_of_range := by
  have htw := takeWhile_isdigit_append ds tail hds htail
  have hdrop : (ws ++ sign ++ ds ++ tail).dropWhile isspace = sign ++ ds ++ tail := by
    rw [List.append_assoc, List.append_assoc, ← List.append_assoc sign]
    apply dropWhile_isspace_append ws _ hws
    intro c hc
    rcases hsign with rfl | rfl | rfl
    · cases ds with
      | nil => exact (hcanon rfl rfl c (by simpa using hc)).1
      | cons d ds =>
        simp only [List.nil_append, List.cons_append, List.head?_cons, Option.some.injEq] at hc
        subst hc
        exact (isdigit_not_other _ (hds _ (List.mem_cons_self _ _))).1
    · simp only [List.cons_append, List.head?_cons, Option.some.injEq] at hc
      subst hc; decide
    · simp only [List.cons_append, List.head?_cons, Option.some.injEq] at hc
      subst hc; decide
  have hdig : ∀ neg : Bool, stoiDigits neg (ds ++ tail)
      = if ds = [] then StoiResult.invalid_argument
        else if neg then
          (if 2147483648 < decimalValue ds then StoiResult.out_of_range
            else StoiResult.ok (-(decimalValue ds : Int)))
        else
          (if 2147483647 < decimalValue ds then StoiResult.out_of_range
            else StoiResult.ok (decimalValue ds : Int)) := by
    intro neg
    simp only [stoiDigits, htw, digitsValue_eq]
  unfold stoi
  rw [hdrop]
  rcases hsign with rfl | rfl | rfl
  · have h1 : (([] : List Char) ++ ds ++ tail).head? ≠ some '-' := by
      cases ds with
      | nil =>
        intro h
        exact (hcanon rfl rfl '-' (by simpa using h)).2.2 rfl
      | cons d ds =>
        simp only [List.nil_append, List.cons_append, List.head?_cons, ne_eq,
          Option.some.injEq]
        exact (isdigit_not_other _ (hds _ (List.mem_cons_self _ _))).2.2
    have h2 : (([] : List Char) ++ ds ++ tail).head? ≠ some '+' := by
      cases ds with
      | nil =>
        intro h
        exact (hcanon rfl rfl '+' (by simpa using h)).2.1 rfl
      | cons d ds =>
        simp only [List.nil_append, List.cons_append, List.head?_cons, ne_eq,
          Option.some.injEq]
        exact (isdigit_not_other _ (hds _ (List.mem_cons_self _ _))).2.1
    simp only [stoiSign, if_neg h1, if_neg h2]
    rw [List.nil_append, hdig false]
    by_cases hd : ds = []
    · simp [hd]
    · simp only [hd, if_false, signedValue, Bool.false_eq_true]
      have : (([] : List Char) = ['-']) = False := by simp
      simp only [this, if_false]
      split <;> split <;> first | rfl | omega
  · have h1 : ((['+'] : List Char) ++ ds ++ tail).head? ≠ some '-' := by
      simp only [List.cons_append, List.head?_cons, ne_eq, Option.some.injEq]; decide
    have h2 : ((['+'] : List Char) ++ ds ++ tail).head? = some '+' := rfl
    simp only [stoiSign, if_neg h1, if_pos h2]
    have : (['+'] ++ ds ++ tail).tail = ds ++ tail := rfl
    rw [this, hdig false]
    by_cases hd : ds = []
    · simp [hd]
    · simp only [hd, if_false, signedValue, Bool.false_eq_true]
      have : ((['+'] : List Char) = ['-']) = False := by simp
      simp only [this, if_false]
      split <;> split <;> first | rfl | omega
  · have h1 : ((['-'] : List Char) ++ ds ++ tail).head? = some '-' := rfl
    simp only [stoiSign, if_pos h1]
    have : (['-'] ++ ds ++ tail).tail = ds ++ tail := rfl
    rw [this, hdig true]
    by_cases hd : ds = []
    · simp [hd]
    · simp only [hd, if_false, signedValue, if_true]
      split <;> split <;> first | rfl | omega

/-- C5 (amended): a line inside the data section that is no marker line is read by `std::stoi`:
after optional leading white space and one optional sign, the longest run of digits is taken and
whatever follows it is ignored. With at least one digit and a value in the range of `int` the
line contributes exactly that value as one count; with no digit, or a value out of range, it is
skipped. -/
theorem data_line_handling (ws sign ds tail : List Char) (rest : List (List Char))
    (counts : List Int)
    (hws : ∀ c ∈ ws, isspace c = true)
    (hsign : sign = [] ∨ sign = ['+'] ∨ sign = ['-'])
    (hds : ∀ c ∈ ds, isdigit c = true)
    (htail : ∀ c, tail.head? = some c → isdigit c = false)
    (hcanon : ds = [] → sign = [] →
      ∀ c, tail.head? = some c → isspace c = false ∧ c ≠ '+' ∧ c ≠ '-')
    (hstart : isStartMarker (ws ++ sign ++ ds ++ tail) = false)
    (hend : isSectionMarker (ws ++ sign ++ ds ++ tail) = false) :
    readDataSection ((ws ++ sign ++ ds ++ tail) :: rest) true counts
      = readDataSection rest true
          (if ds ≠ [] ∧ -2147483648 ≤ signedValue sign ds ∧ signedValue sign ds ≤ 2147483647
            then counts ++ [signedValue sign ds] else counts) := by
  rw [readDataSection_cons, hstart, hend, stoi_shape ws sign ds tail hws hsign hds htail hcanon]
  by_cases hd : ds = []
  · simp [hd]
  · by_cases hr : -2147483648 ≤ signedValue sign ds ∧ signedValue sign ds ≤ 2147483647
    · simp [hd, hr]
    · simp [hd, hr]

/-- Witness for C5 (amended): the line ` -12abc` contributes `-12`. -/
theorem data_line_handling_witness :
    readDataSection ((" ".toList ++ "-".toList ++ "12".toList ++ "abc".toList) :: []) true []
      = readDataSection [] true
          (if "12".toList ≠ [] ∧ -2147483648 ≤ signedValue "-".toList "12".toList
              ∧ signedValue "-".toList "12".toList ≤ 2147483647
            then [] ++ [signedValue "-".toList "12".toList] else []) :=
  data_line_handling " ".toList "-".toList "12".toList "abc".toList [] []
    (by decide) (by decide) (by decide)
    (by intro c hc; simp at hc; subst hc; decide)
    (by intro h; simp at h)
    (by decide) (by decide)

/-- C5 (counterexample): inside the data section the lines `12abc` (a number followed by other
characters) and `3.7` (a decimal) are not skipped; they contribute 12 and 3. -/
theorem malformed_lines_contribute :
    stoi "12abc".toList = StoiResult.ok 12
    ∧ stoi "3.7".toList = StoiResult.ok 3
    ∧ readDataSection
        ["<<DATA>>".toList, "12abc".toList, "3.7".toList, "<<END>>".toList] false []
      = [12, 3] := by
  decide

/-- Before the start marker the reader only looks for it. -/
theorem readDataSection_false (lines : List (List Char)) (counts : List Int) :
    readDataSection lines false counts
      = readDataSection ((lines.dropWhile (fun l => !isStartMarker l)).drop 1) true counts := by
  induction lines with
  | nil => simp [readDataSection]
  | cons line rest ih =>
    rw [readDataSection_cons]
    by_cases hs : isStartMarker line = true
    · simp [hs, List.dropWhile_cons]
    · simp only [Bool.not_eq_true] at hs
      simp [hs, List.dropWhile_cons, ih]

/-- Inside the data section the reader collects the counts of the lines up to the first line
that contains `<<` and `>>` but not `<<DATA>>`, passing over the lines that contain
`<<DATA>>`. -/
theorem readDataSection_true (lines : List (List Char)) : ∀ counts : List Int,
    readDataSection lines true counts
      = counts ++ countsOf ((lines.takeWhile
          (fun l => isStartMarker l || !isSectionMarker l)).filter
            (fun l => !isStartMarker l)) := by
  induction lines with
  | nil => intro counts; simp [readDataSection, countsOf]
  | cons line rest ih =>
    intro counts
    rw [readDataSection_cons]
    by_cases hs : isStartMarker line = true
    · simp [hs, List.takeWhile_cons, ih]
    · simp only [Bool.not_eq_true] at hs
      by_cases he : isSectionMarker line = true
      · simp [hs, he, List.takeWhile_cons, countsOf]
      · simp only [Bool.not_eq_true] at he
        simp only [hs, he, Bool.false_eq_true, if_false, Bool.and_false, if_true,
          List.takeWhile_cons, Bool.not_false, Bool.or_true, List.filter_cons]
        cases hst : stoi line with
        | ok v => simp [ih, countsOf, hst, List.filterMap_cons]
        | invalid_argument => simp [ih, countsOf, hst, List.filterMap_cons]
        | out_of_range => simp [ih, countsOf, hst, List.filterMap_cons]

/-- C6 (amended): the counts are exactly the `std::stoi` values, in order, of the lines strictly
after the first line containing `<<DATA>>` and strictly before the first subsequent line that
contains `<<` and `>>` but not `<<DATA>>`, leaving out every line that contains `<<DATA>>`: a
repeated `<<DATA>>` line contributes nothing and does not end the section. No line before the
start marker and no line at or after that end line contributes. -/
theorem counts_from_section (lines : List (List Char)) :
    readDataSection lines false [] = countsOf (sectionUpToOtherMarker lines) := by
  rw [readDataSection_false, readDataSection_true]
  simp [sectionUpToOtherMarker]

/-- C6 (counterexample): after a repeated `<<DATA>>` line the reader goes on collecting. The
only line strictly between the first `<<DATA>>` line and the first subsequent `<<...>>` line is
`1`, yet the line `2` after the repeated marker contributes a count as well. -/
theorem repeated_start_marker_continues :
    sectionUpToAnyMarker
        ["<<DATA>>".toList, "1".toList, "<<DATA>>".toList, "2".toList, "<<END>>".toList]
      = ["1".toList]
    ∧ readDataSection
        ["<<DATA>>".toList, "1".toList, "<<DATA>>".toList, "2".toList, "<<END>>".toList]
        false []
      = [1, 2] := by
  decide

/-- A count read without a minus sign is not negative. -/
theorem stoi_negative (line : List Char) (v : Int) (h : stoi line = StoiResult.ok v)
    (hv : v < 0) : (line.dropWhile isspace).head? = some '-' := by
  have key : ∀ body : List Char, stoiDigits false body ≠ StoiResult.ok v := by
    intro body hb
    unfold stoiDigits at hb
    split at hb
    · exact absurd hb (by simp)
    · simp only [Bool.false_eq_true, if_false] at hb
      split at hb
      · exact absurd hb (by simp)
      · simp only [StoiResult.ok.injEq] at hb
        omega
  unfold stoi stoiSign at h
  split at h
  · assumption
  · split at h
    · exact absurd h (key _)
    · exact absurd h (key _)

/-- The reader returns the counts of the lines of the data section. -/
theorem readDataSection_eq_countsOf (lines : List (List Char)) :
    readDataSection lines false [] = countsOf (sectionUpToOtherMarker lines) := by
  rw [readDataSection_false, readDataSection_true]
  simp [sectionUpToOtherMarker]

/-- Every count is the `std::stoi` value of a line of the data section. -/
theorem mem_countsOf (ls : List (List Char)) (c : Int) (h : c ∈ countsOf ls) :
    ∃ l ∈ ls, stoi l = StoiResult.ok c := by
  unfold countsOf at h
  rw [List.mem_filterMap] at h
  obtain ⟨l, hl, hs⟩ := h
  refine ⟨l, hl, ?_⟩
  cases hst : stoi l with
  | ok v =>
    rw [hst] at hs
    simp only [Option.some.injEq] at hs
    rw [hs]
  | invalid_argument => rw [hst] at hs; simp at hs
  | out_of_range => rw [hst] at hs; simp at hs

/-- C4 (amended): every element of the counts sequence the data-section reader produces is an
integer in the range of `int`, and it is non-negative unless it is the value of a line of the
data section whose first character after leading white space is a minus sign. So the counts are
all non-negative whenever no line of the section starts with a minus sign. -/
theorem counts_negative_only_with_minus (lines : List (List Char)) (c : Int)
    (h : c ∈ readDataSection lines false []) :
    (-2147483648 ≤ c ∧ c ≤ 2147483647)
    ∧ (c < 0 → ∃ l ∈ sectionUpToOtherMarker lines,
        (l.dropWhile isspace).head? = some '-' ∧ stoi l = StoiResult.ok c)
    ∧ ((∀ l ∈ sectionUpToOtherMarker lines, (l.dropWhile isspace).head? ≠ some '-') →
        0 ≤ c) := by
  have hr := readDataSection_range lines false [] (by simp) c h
  rw [readDataSection_eq_countsOf] at h
  obtain ⟨l, hl, hs⟩ := mem_countsOf _ c h
  refine ⟨hr, ?_, ?_⟩
  · intro hc
    exact ⟨l, hl, stoi_negative l c hs hc, hs⟩
  · intro hno
    by_contra hneg
    exact hno l hl (stoi_negative l c hs (by omega))

/-- Witness for C4 (amended): in a data section holding `4` and `-5` the count 4 is
non-negative and the count -5 comes from the line `-5`. -/
theorem counts_negative_only_with_minus_witness :
    (∃ l ∈ sectionUpToOtherMarker ["<<DATA>>".toList, "4".toList, "-5".toList],
      (l.dropWhile isspace).head? = some '-' ∧ stoi l = StoiResult.ok (-5))
    ∧ (0 : Int) ≤ 4 :=
  ⟨(counts_negative_only_with_minus ["<<DATA>>".toList, "4".toList, "-5".toList] (-5)
      (by decide)).2.1 (by decide),
   (counts_negative_only_with_minus ["<<DATA>>".toList, "4".toList] 4
      (by decide)).2.2 (by decide)⟩

/-! ## Histogram construction -/

/-- A count below `2^31` is converted into `int` unchanged. -/
theorem toInt_small (n : Nat) (h : n < 2147483648) : toInt n = (n : Int) := by
  unfold toInt
  have : n % 4294967296 = n := Nat.mod_eq_of_lt (by omega)
  rw [this, if_pos h]

/-- Writing the next count into the cell after the counts already written. -/
theorem set_next_cell (counts : List Int) : ∀ k : Nat, k < counts.length →
    (counts.take k ++ List.replicate (counts.length - k) 0 ++ [0]).set k (counts.getD k 0)
      = counts.take (k + 1) ++ List.replicate (counts.length - (k + 1)) 0 ++ [0] := by
  induction counts with
  | nil => intro k hk; simp at hk
  | cons a as ih =>
    intro k hk
    cases k with
    | zero =>
      simp only [List.take_zero, List.nil_append, List.length_cons, Nat.sub_zero,
        List.replicate_succ, List.cons_append, List.set_cons_zero, List.getD_cons_zero,
        Nat.zero_add, List.take_succ_cons, Nat.add_sub_cancel]
    | succ k =>
      have hk2 : k < as.length := by simpa using hk
      have := ih k hk2
      simp only [List.take_succ_cons, List.cons_append, List.length_cons, Nat.succ_sub_succ,
        List.set_cons_succ, List.getD_cons_succ, List.cons.injEq, true_and]
      simpa using this

/-- The fill loop after `k` iterations on a fresh histogram of `counts.length` bins. -/
theorem fillBins_steps (h0 : TH1I) (counts : List Int)
    (harr : h0.fArray = List.replicate (counts.length + 2) 0) : ∀ k : Nat, k ≤ counts.length →
    (List.range k).foldl
        (fun (h : TH1I) (i : Nat) => h.SetBinContent ((i : Int) + 1) (counts.getD i 0)) h0
      = { h0 with fArray :=
            (0 : Int) :: (counts.take k ++ List.replicate (counts.length - k) 0 ++ [0]) } := by
  intro k
  induction k with
  | zero =>
    intro _
    simp only [List.range_zero, List.foldl_nil, List.take_zero, List.nil_append, Nat.sub_zero]
    have : (0 : Int) :: (List.replicate counts.length 0 ++ [0])
        = List.replicate (counts.length + 2) 0 := by
      rw [List.replicate_succ, List.replicate_succ']
    rw [this, ← harr]
  | succ k ih =>
    intro hk
    rw [List.range_succ, List.foldl_append, ih (by omega)]
    simp only [List.foldl_cons, List.foldl_nil, TH1I.SetBinContent]
    have hlen : ((0 : Int) :: (counts.take k ++ List.replicate (counts.length - k) 0
        ++ [0])).length = counts.length + 2 := by
      simp only [List.length_cons, List.length_append, List.length_take,
        List.length_replicate, List.length_nil]
      omega
    have hcond : (0 : Int) ≤ (k : Int) + 1 ∧ (k : Int) + 1
        < (((0 : Int) :: (counts.take k ++ List.replicate (counts.length - k) 0
          ++ [0])).length : Nat) := by
      rw [hlen]; omega
    rw [if_pos hcond]
    have htn : ((k : Int) + 1).toNat = k + 1 := by omega
    simp only [htn, List.set_cons_succ, set_next_cell counts k (by omega)]

/-- The histogram the scripts build from a non-empty list of fewer than `2^31` counts: as many
bins as counts, and the cells hold 0 (underflow), the counts in order, 0 (overflow). -/
theorem fillBins_new (name title : String) (xlow xup : Double) (counts : List Int)
    (hne : counts ≠ []) (hlt : counts.length < 2147483648) :
    fillBins (TH1I.new name title (toInt counts.length) xlow xup) counts (toInt counts.length)
      = { fName := name, fTitle := title, fNbins := (counts.length : Int), fXmin := xlow,
          fXmax := xup, fArray := (0 : Int) :: (counts ++ [0]), fStats := true } := by
  have hpos : 0 < counts.length := List.length_pos.2 hne
  have hnew : TH1I.new name title (toInt counts.length) xlow xup
      = { fName := name, fTitle := title, fNbins := (counts.length : Int), fXmin := xlow,
          fXmax := xup, fArray := List.replicate (counts.length + 2) 0, fStats := true } := by
    have h1 : ¬ ((counts.length : Int) ≤ 0) := by omega
    simp only [TH1I.new, toInt_small _ hlt, if_neg h1, Int.toNat_ofNat]
  rw [hnew]
  unfold fillBins
  rw [toInt_small _ hlt, Int.toNat_ofNat, fillBins_steps _ counts rfl counts.length (le_refl _)]
  simp

/-- `createHistogramFromFile` on a file that opens, for a non-empty list of fewer than `2^31`
counts. -/
theorem createHistogramFromFile_some (lines : List (List Char)) (useCalibration : Bool)
    (conversionFactor : Double) (hne : readDataSection lines false [] ≠ [])
    (hlt : (readDataSection lines false []).length < 2147483648) :
    createHistogramFromFile (some lines) useCalibration conversionFactor
      = (some
          { fName := "spectrum",
            fTitle := "MCA Spectrum;" ++ (if useCalibration then "Energy (keV)" else "Channel")
              ++ ";Counts",
            fNbins := ((readDataSection lines false []).length : Int),
            fXmin := if useCalibration then Double.mul Double.zero conversionFactor
              else Double.zero,
            fXmax := if useCalibration then
                Double.mul (Double.ofInt (readDataSection lines false []).length) conversionFactor
              else Double.ofInt (readDataSection lines false []).length,
            fArray := (0 : Int) :: (readDataSection lines false [] ++ [0]),
            fStats := false }, []) := by
  have hemp : (readDataSection lines false []).isEmpty = false := by
    cases hc : readDataSection lines false [] with
    | nil => exact absurd hc hne
    | cons a l => rfl
  simp only [createHistogramFromFile, hemp, Bool.false_eq_true, if_false]
  rw [fillBins_new _ _ _ _ _ hne hlt]
  simp only [TH1I.SetStats, toInt_small _ hlt]

/-- `SetBinContent` leaves the number of bins as it is. -/
theorem SetBinContent_fNbins (h : TH1I) (bin content : Int) :
    (h.SetBinContent bin content).fNbins = h.fNbins := by
  unfold TH1I.SetBinContent
  split <;> rfl

/-- The fill loop leaves the number of bins as it is. -/
theorem fillBins_fNbins (hist : TH1I) (counts : List Int) (nbins : Int) :
    (fillBins hist counts nbins).fNbins = hist.fNbins := by
  unfold fillBins
  generalize List.range nbins.toNat = l
  induction l generalizing hist with
  | nil => rfl
  | cons i l ih =>
    rw [List.foldl_cons, ih, SetBinContent_fNbins]

/-- `createHistogramFromFile` on a file that opens and holds at least one count. -/
theorem createHistogramFromFile_nonempty (lines : List (List Char)) (useCalibration : Bool)
    (conversionFactor : Double) (hne : readDataSection lines false [] ≠ []) :
    createHistogramFromFile (some lines) useCalibration conversionFactor
      = (some ((fillBins
          (TH1I.new "spectrum"
            ("MCA Spectrum;" ++ (if useCalibration then "Energy (keV)" else "Channel")
              ++ ";Counts")
            (toInt (readDataSection lines false []).length)
            (if useCalibration then Double.mul Double.zero conversionFactor else Double.zero)
            (if useCalibration then
              Double.mul (Double.ofInt (toInt (readDataSection lines false []).length))
                conversionFactor
            else Double.ofInt (toInt (readDataSection lines false []).length)))
          (readDataSection lines false [])
          (toInt (readDataSection lines false []).length)).SetStats false), []) := by
  have hemp : (readDataSection lines false []).isEmpty = false := by
    cases hc : readDataSection lines false [] with
    | nil => exact absurd hc hne
    | cons a l => rfl
  simp only [createHistogramFromFile, hemp, Bool.false_eq_true, if_false]

/-- On a readable file `createHistogramFromFile` returns `nullptr` exactly when the reader
extracted no count; otherwise it returns a histogram with at least one bin, and with as many bins
as counts when the number of counts is below `2^31`. -/
theorem createHistogramFromFile_null_iff (lines : List (List Char)) (useCalibration : Bool)
    (conversionFactor : Double) :
    ((createHistogramFromFile (some lines) useCalibration conversionFactor).1 = none
        ↔ readDataSection lines false [] = [])
    ∧ (readDataSection lines false [] ≠ [] →
        ∃ hist, (createHistogramFromFile (some lines) useCalibration conversionFactor).1
            = some hist
          ∧ 1 ≤ hist.GetNbinsX
          ∧ ((readDataSection lines false []).length < 2147483648 →
              hist.GetNbinsX = ((readDataSection lines false []).length : Int))) := by
  refine ⟨?_, ?_⟩
  · cases hc : readDataSection lines false [] with
    | nil => simp [createHistogramFromFile, hc]
    | cons a l => simp [createHistogramFromFile, hc]
  · intro hne
    rw [createHistogramFromFile_nonempty lines useCalibration conversionFactor hne]
    refine ⟨_, rfl, ?_, ?_⟩
    · simp only [TH1I.GetNbinsX, TH1I.SetStats, fillBins_fNbins, TH1I.new]
      split <;> omega
    · intro hlt
      simp only [TH1I.GetNbinsX, TH1I.SetStats, fillBins_fNbins, TH1I.new, toInt_small _ hlt]
      have : 0 < (readDataSection lines false []).length := List.length_pos.2 hne
      split <;> omega

/-- Inside the data section, `n` copies of a line that holds the integer `v` append `n`
counts `v`. -/
theorem readDataSection_replicate (line : List Char) (v : Int)
    (h1 : isStartMarker line = false) (h2 : isSectionMarker line = false)
    (h3 : stoi line = StoiResult.ok v) (n : Nat) : ∀ counts : List Int,
    readDataSection (List.replicate n line) true counts = counts ++ List.replicate n v := by
  induction n with
  | zero => intro counts; simp [readDataSection]
  | succ n ih =>
    intro counts
    rw [List.replicate_succ, readDataSection_cons, h1, h2, h3]
    simp only [Bool.false_eq_true, if_false, Bool.and_false, if_true, ih, List.append_assoc,
      List.singleton_append, List.replicate_succ]

/-- With `nbins <= 0` the fill loop does not run. -/
theorem fillBins_nonpos (hist : TH1I) (counts : List Int) (nbins : Int) (h : nbins ≤ 0) :
    fillBins hist counts nbins = hist := by
  have : nbins.toNat = 0 := by omega
  simp [fillBins, this]

/-- For exactly `2^31` counts `int nbins` is `-2^31`: the constructor is called with it, no bin
is filled, and the histogram returned has one bin and three cells holding 0. -/
theorem createHistogramFromFile_wrapped (lines : List (List Char)) (useCalibration : Bool)
    (conversionFactor : Double)
    (hlen : (readDataSection lines false []).length = 2147483648) :
    ∃ title xlow xhigh,
      (createHistogramFromFile (some lines) useCalibration conversionFactor).1
        = some ((TH1I.new "spectrum" title (-2147483648) xlow xhigh).SetStats false)
      ∧ ((TH1I.new "spectrum" title (-2147483648) xlow xhigh).SetStats false).GetNbinsX = 1
      ∧ ((TH1I.new "spectrum" title (-2147483648) xlow xhigh).SetStats false).fArray
        = [0, 0, 0] := by
  have hne : readDataSection lines false [] ≠ [] := by
    intro hc; rw [hc] at hlen; simp at hlen
  have hn : toInt 2147483648 = -2147483648 := by decide
  refine ⟨"MCA Spectrum;" ++ (if useCalibration then "Energy (keV)" else "Channel") ++ ";Counts",
    if useCalibration then Double.mul Double.zero conversionFactor else Double.zero,
    if useCalibration then Double.mul (Double.ofInt (-2147483648)) conversionFactor
      else Double.ofInt (-2147483648), ?_, ?_, ?_⟩
  · rw [createHistogramFromFile_nonempty lines useCalibration conversionFactor hne]
    simp only [hlen, hn]
    rw [fillBins_nonpos _ _ _ (by decide)]
  · simp [TH1I.new, TH1I.SetStats, TH1I.GetNbinsX]
  · simp [TH1I.new, TH1I.SetStats]

/-- C7 (the code at the failing input): a data section of `2^31` lines `0` yields `2^31` counts;
`int nbins = counts.size()` is then `-2^31`, no bin is filled, and the histogram returned has one
bin, not `2^31`. -/
theorem bins_wrap_at_two_pow_31 :
    (readDataSection ("<<DATA>>".toList :: List.replicate 2147483648 "0".toList) false
        []).length = 2147483648
    ∧ toInt 2147483648 = -2147483648
    ∧ (createHistogramFromFile
        (some ("<<DATA>>".toList :: List.replicate 2147483648 "0".toList)) false
          Double.zero).1.map TH1I.GetNbinsX = some 1
    ∧ (createHistogramFromFile
        (some ("<<DATA>>".toList :: List.replicate 2147483648 "0".toList)) false
          Double.zero).1.map (fun h => h.fArray) = some [0, 0, 0] := by
  have hs : isStartMarker "<<DATA>>".toList = true := by decide
  have hread : readDataSection ("<<DATA>>".toList :: List.replicate 2147483648 "0".toList)
      false [] = List.replicate 2147483648 0 := by
    rw [readDataSection_cons, hs, if_pos rfl,
      readDataSection_replicate "0".toList 0 (by decide) (by decide) (by decide),
      List.nil_append]
  have hlen : (readDataSection ("<<DATA>>".toList :: List.replicate 2147483648 "0".toList)
      false []).length = 2147483648 := by rw [hread, List.length_replicate]
  obtain ⟨title, xlow, xhigh, h1, h2, h3⟩ :=
    createHistogramFromFile_wrapped _ false Double.zero hlen
  refine ⟨hlen, by decide, ?_, ?_⟩
  · rw [h1]; exact congrArg some h2
  · rw [h1]; exact congrArg some h3

/-- For a finite factor `0.0 * conversionFactor` is a zero. -/
theorem Double.zero_mul_finite (x : Double) (h : x.isFinite = true) :
    Double.eq (Double.mul Double.zero x) Double.zero = true := by
  cases x with
  | nan => simp [Double.isFinite] at h
  | inf neg => simp [Double.isFinite] at h
  | fin neg m e =>
    cases neg
    · simp [Double.mul, Double.zero, Double.round, Double.eq, Double.le, Double.cmpMag]
      rfl
    · simp [Double.mul, Double.zero, Double.round, Double.eq, Double.le, Double.cmpMag]

/-- Reading a cell of the filled histogram. -/
theorem getBinContent_filled (h : TH1I) (counts : List Int)
    (harr : h.fArray = (0 : Int) :: (counts ++ [0])) (i : Nat) (hi : i < counts.length) :
    h.GetBinContent ((i : Int) + 1) = counts.get ⟨i, hi⟩ := by
  unfold TH1I.GetBinContent
  have h1 : ¬ ((i : Int) + 1 < 0) := by omega
  have h2 : ¬ ((h.fArray.length : Int) ≤ (i : Int) + 1) := by
    rw [harr]
    simp only [List.length_cons, List.length_append, List.length_nil]
    push_cast
    omega
  have h3 : ((i : Int) + 1).toNat = i + 1 := by omega
  rw [if_neg h1, if_neg h2, h3, harr]
  simp [List.getElem?_append_left hi, List.getElem?_eq_getElem hi]

/-- A finite double greater than zero has a positive sign and a non-zero mantissa. -/
theorem Double.pos_finite (x : Double) (hpos : Double.lt Double.zero x = true)
    (hfin : x.isFinite = true) : ∃ m e, x = Double.fin false m e ∧ m ≠ 0 := by
  cases x with
  | nan => simp [Double.isFinite] at hfin
  | inf neg => simp [Double.isFinite] at hfin
  | fin neg m e =>
    cases neg with
    | true => simp [Double.lt, Double.le, Double.zero] at hpos
    | false =>
      refine ⟨m, e, rfl, ?_⟩
      rintro rfl
      simp only [Double.lt, Double.le, Double.zero, Double.cmpMag, if_true] at hpos
      exact absurd hpos (by decide)

/-- A choice between two doubles that are no NaN is no NaN. -/
theorem Double.ite_ne_nan (c : Prop) [Decidable c] (a b : Double) (ha : a ≠ Double.nan)
    (hb : b ≠ Double.nan) : (if c then a else b) ≠ Double.nan := by
  split
  · exact ha
  · exact hb

/-- Rounding never yields a NaN. -/
theorem Double.round_ne_nan (neg : Bool) (num den : Nat) (x : Int) :
    Double.round neg num den x ≠ Double.nan := by
  unfold Double.round
  split
  · simp
  · exact Double.ite_ne_nan _ _ _ (by simp) (by simp)

/-- The product of an integer and a finite non-zero double is no NaN. -/
theorem Double.ofInt_mul_ne_nan (i : Int) (m : Nat) (e : Int) (hm : m ≠ 0) :
    Double.mul (Double.ofInt i) (Double.fin false m e) ≠ Double.nan := by
  cases h : Double.ofInt i with
  | nan => exact absurd h (Double.round_ne_nan _ _ _ _)
  | inf a => simp [Double.mul, hm]
  | fin a m1 e1 =>
    simp only [Double.mul]
    exact Double.round_ne_nan _ _ _ _

/-- Adding `0.0` to a double that is no NaN gives an equal double. -/
theorem Double.zero_add_eq (y : Double) (hy : y ≠ Double.nan) :
    Double.eq (Double.add Double.zero y) y = true := by
  cases y with
  | nan => exact absurd rfl hy
  | inf c => cases c <;> simp [Double.add, Double.zero, Double.eq, Double.le]
  | fin c m e =>
    have hc : ∀ k : Nat, compare k k = Ordering.eq := fun k => compare_eq_iff_eq.2 rfl
    by_cases hm : m = 0
    · subst hm
      cases c <;> simp [Double.add, Double.zero, Double.eq, Double.le, Double.cmpMag]
      decide
    · cases c <;>
        (simp [Double.add, Double.zero, Double.eq, Double.le, Double.cmpMag, hm, hc]; decide)

/-- The edge ROOT computes for a bin on the calibrated axis, when the factor is finite and
greater than zero and `(n * factor) / n` is the factor again: the lower end of the axis is `0.0`,
the bin width is the factor, and the edge is `0.0 + i * factor`. -/
theorem Double.calibrated_edge (n i : Int) (cf : Double)
    (hpos : Double.lt Double.zero cf = true) (hfin : cf.isFinite = true)
    (hexact : Double.div (Double.mul (Double.ofInt n) cf) (Double.ofInt n) = cf) :
    Double.mul Double.zero cf = Double.zero
    ∧ Double.div (Double.sub (Double.mul (Double.ofInt n) cf) (Double.mul Double.zero cf))
        (Double.ofInt n) = cf
    ∧ Double.eq (Double.add Double.zero (Double.mul (Double.ofInt i) cf))
        (Double.mul (Double.ofInt i) cf) = true := by
  obtain ⟨m, e, rfl, hm⟩ := Double.pos_finite cf hpos hfin
  have hmin : Double.mul Double.zero (Double.fin false m e) = Double.zero := by
    simp [Double.mul, Double.zero, Double.round]
  refine ⟨hmin, ?_, Double.zero_add_eq _ (Double.ofInt_mul_ne_nan i m e hm)⟩
  rw [hmin]
  have hsub : Double.sub (Double.mul (Double.ofInt n) (Double.fin false m e)) Double.zero
      = Double.mul (Double.ofInt n) (Double.fin false m e) := by
    cases hX : Double.mul (Double.ofInt n) (Double.fin false m e) with
    | nan => rfl
    | inf a => rfl
    | fin a mx ex =>
      have hmx : mx ≠ 0 := by
        rintro rfl
        rw [hX] at hexact
        cases hn : Double.ofInt n with
        | nan => rw [hn] at hexact; simp [Double.div] at hexact
        | inf b =>
          rw [hn] at hexact
          simp only [Double.div, Double.fin.injEq] at hexact
          exact hm hexact.2.1.symm
        | fin b m2 e2 =>
          rw [hn] at hexact
          by_cases h2 : m2 = 0
          · simp [Double.div, h2] at hexact
          · simp only [Double.div, h2, if_false, Double.round, if_true, Double.fin.injEq]
              at hexact
            exact hm hexact.2.1.symm
      simp [Double.sub, Double.neg, Double.add, Double.zero, hmx]
  rw [hsub, hexact]

/-- C10 (amended): for a non-empty counts sequence of length `n < 2^31`,
`createHistogramFromFile` builds a histogram with exactly `n` bins whose bin `i + 1` holds
`counts[i]` for every `0 ≤ i < n`; its cells are 0, the counts, 0, whatever `useCalibration` and
the factor are. The axis range is `[0, n]` when `useCalibration` is false and
`[0.0 * conversionFactor, n * conversionFactor]` when it is true, where the lower edge is a zero
whenever the factor is finite. Channel `i` starts at the edge ROOT computes for bin `i + 1`,
`fXmin + i * ((fXmax - fXmin) / n)` in `double` arithmetic. On the calibrated axis, when the
factor is finite and greater than zero and `(n * conversionFactor) / n` is the factor again, the
lower edge is `0.0` and channel `i` starts at `0.0 + i * conversionFactor`, which is equal to
`i * conversionFactor`. -/
theorem histogram_bins_and_axis (lines : List (List Char)) (useCalibration : Bool)
    (conversionFactor : Double) (hne : readDataSection lines false [] ≠ [])
    (hlt : (readDataSection lines false []).length < 2147483648) :
    ∃ hist, createHistogramFromFile (some lines) useCalibration conversionFactor
        = (some hist, [])
      ∧ hist
        = { fName := "spectrum",
            fTitle := "MCA Spectrum;" ++ (if useCalibration then "Energy (keV)" else "Channel")
              ++ ";Counts",
            fNbins := ((readDataSection lines false []).length : Int),
            fXmin := if useCalibration then Double.mul Double.zero conversionFactor
              else Double.zero,
            fXmax := if useCalibration then
                Double.mul (Double.ofInt (readDataSection lines false []).length) conversionFactor
              else Double.ofInt (readDataSection lines false []).length,
            fArray := (0 : Int) :: (readDataSection lines false [] ++ [0]),
            fStats := false }
      ∧ hist.GetNbinsX = ((readDataSection lines false []).length : Int)
      ∧ (∀ (i : Nat) (hi : i < (readDataSection lines false []).length),
          hist.GetBinContent ((i : Int) + 1) = (readDataSection lines false []).get ⟨i, hi⟩)
      ∧ (useCalibration = true → conversionFactor.isFinite = true →
          Double.eq hist.fXmin Double.zero = true)
      ∧ (∀ i : Nat, i < (readDataSection lines false []).length →
          hist.GetBinLowEdge ((i : Int) + 1)
            = Double.add hist.fXmin
                (Double.mul (Double.ofInt i)
                  (Double.div (Double.sub hist.fXmax hist.fXmin)
                    (Double.ofInt (readDataSection lines false []).length))))
      ∧ (useCalibration = true → Double.lt Double.zero conversionFactor = true →
          conversionFactor.isFinite = true →
          Double.div
              (Double.mul (Double.ofInt (readDataSection lines false []).length)
                conversionFactor)
              (Double.ofInt (readDataSection lines false []).length) = conversionFactor →
          hist.fXmin = Double.zero
          ∧ ∀ i : Nat, i < (readDataSection lines false []).length →
              hist.GetBinLowEdge ((i : Int) + 1)
                = Double.add Double.zero (Double.mul (Double.ofInt i) conversionFactor)
              ∧ Double.eq (hist.GetBinLowEdge ((i : Int) + 1))
                  (Double.mul (Double.ofInt i) conversionFactor) = true) := by
  refine ⟨_, createHistogramFromFile_some lines useCalibration conversionFactor hne hlt, rfl,
    rfl, ?_, ?_, ?_, ?_⟩
  · intro i hi
    exact getBinContent_filled _ _ rfl i hi
  · intro hu hf
    simp only [hu, if_true]
    exact Double.zero_mul_finite conversionFactor hf
  · intro i _
    simp only [TH1I.GetBinLowEdge, add_sub_cancel_right]
  · intro hu hpos hfin hexact
    have hmin := (Double.calibrated_edge (readDataSection lines false []).length 0
      conversionFactor hpos hfin hexact).1
    refine ⟨by simp only [hu, if_true]; exact hmin, ?_⟩
    intro i _
    obtain ⟨_, hw, heq⟩ := Double.calibrated_edge (readDataSection lines false []).length i
      conversionFactor hpos hfin hexact
    simp only [TH1I.GetBinLowEdge, add_sub_cancel_right, hu, if_true]
    rw [hw, hmin]
    exact ⟨rfl, heq⟩

set_option maxRecDepth 8000 in
/-- Witness for C10 (amended): counts 7 and 9 with factor 3 on the calibrated axis; `(2 * 3) / 2`
is 3 again, and channel 1 starts at 3, which is `1 * 3`. -/
theorem histogram_bins_and_axis_witness :
    ∃ hist, createHistogramFromFile (some ["<<DATA>>".toList, "7".toList, "9".toList]) true
          (Double.ofInt 3) = (some hist, [])
      ∧ hist.fArray = [0, 7, 9, 0]
      ∧ hist.fXmax = Double.ofInt 6
      ∧ hist.GetBinLowEdge 2 = Double.ofInt 3
      ∧ Double.eq (hist.GetBinLowEdge 2) (Double.mul (Double.ofInt 1) (Double.ofInt 3))
        = true := by
  obtain ⟨hist, h1, h2, _, _, _, _, h7⟩ :=
    histogram_bins_and_axis ["<<DATA>>".toList, "7".toList, "9".toList] true (Double.ofInt 3)
      (by decide) (by decide)
  refine ⟨hist, h1, ?_, ?_, ?_, ?_⟩
  · rw [h2]; decide
  · rw [h2]; decide
  · rw [h2]; decide
  · exact ((h7 rfl (by decide) (by decide) (by decide)).2 1 (by decide)).2

/-- The histogram returned for `2^31` counts 7 has one bin, and that bin holds 0. -/
theorem createHistogramFromFile_sevens :
    (createHistogramFromFile
        (some ("<<DATA>>".toList :: List.replicate 2147483648 "7".toList)) true
          (Double.ofInt 1)).1.map (fun h => (h.GetNbinsX, h.GetBinContent 1))
      = some (1, 0) := by
  have hs : isStartMarker "<<DATA>>".toList = true := by decide
  have hread : readDataSection ("<<DATA>>".toList :: List.replicate 2147483648 "7".toList)
      false [] = List.replicate 2147483648 7 := by
    rw [readDataSection_cons, hs, if_pos rfl,
      readDataSection_replicate "7".toList 7 (by decide) (by decide) (by decide),
      List.nil_append]
  have hlen : (readDataSection ("<<DATA>>".toList :: List.replicate 2147483648 "7".toList)
      false []).length = 2147483648 := by rw [hread, List.length_replicate]
  obtain ⟨title, xlow, xhigh, h1, h2, h3⟩ :=
    createHistogramFromFile_wrapped _ true (Double.ofInt 1) hlen
  rw [h1]
  simp only [Option.map, h2, TH1I.GetBinContent, h3]
  decide

set_option maxRecDepth 8000 in
/-- C10 (counterexample): three ways the claim fails as stated. With `useCalibration` true and
an infinite conversion factor the lower edge `0.0 * conversionFactor` is NaN, not 0; the
calibration line `0 = 5` gives createSpectrumHistogramcopy such a factor, `5.0 / 0.0`, which
passes its check. With factor 0.1 and three counts, channel 1 starts at the edge
`0.0 + 1 * ((0.30000000000000004 - 0.0) / 3)`, one unit in the last place above
`1 * 0.1`. With `2^31` counts 7 the histogram has one bin, which holds 0. -/
theorem axis_and_edges_fail :
    ((createHistogramFromFile (some ["<<DATA>>".toList, "7".toList]) true
        (Double.inf false)).1.map (fun h => h.fXmin) = some Double.nan
      ∧ Double.eq Double.nan Double.zero = false
      ∧ (createSpectrumHistogramcopy (some ["0 = 5".toList])
          (some ["<<DATA>>".toList, "7".toList])).1.map
            (fun r => (r.conversionFactor, r.hist.fXmin))
        = some (Double.inf false, Double.nan))
    ∧ ((createHistogramFromFile (some ["<<DATA>>".toList, "7".toList, "8".toList, "9".toList])
          true (Double.ofDecimal false 1 (-1))).1.map (fun h => h.GetBinLowEdge 2)
        = some (Double.fin false 7205759403792795 (-56))
      ∧ Double.mul (Double.ofInt 1) (Double.ofDecimal false 1 (-1))
        = Double.fin false 7205759403792794 (-56))
    ∧ ((readDataSection ("<<DATA>>".toList :: List.replicate 2147483648 "7".toList) false
          []).head? = some 7
      ∧ (createHistogramFromFile
          (some ("<<DATA>>".toList :: List.replicate 2147483648 "7".toList)) true
            (Double.ofInt 1)).1.map (fun h => (h.GetNbinsX, h.GetBinContent 1))
        = some (1, 0)) := by
  refine ⟨by decide, by decide, ?_, createHistogramFromFile_sevens⟩
  have hs : isStartMarker "<<DATA>>".toList = true := by decide
  rw [readDataSection_cons, hs, if_pos rfl,
    readDataSection_replicate "7".toList 7 (by decide) (by decide) (by decide),
    List.nil_append, List.replicate_succ]
  rfl

/-! ## The floating-point scanner on well-formed numerals -/

/-- A digit is neither a point nor an exponent letter. -/
theorem isdigit_not_letter (c : Char) (h : isdigit c = true) :
    c ≠ '.' ∧ c ≠ 'e' ∧ c ≠ 'E' := by
  simp only [isdigit, Bool.and_eq_true, decide_eq_true_eq] at h
  refine ⟨?_, ?_, ?_⟩ <;> (rintro rfl; revert h; decide)

/-- The main loop reads a run of digits. -/
theorem scanFloat_digits (ds t : List Char) (hds : ∀ c ∈ ds, isdigit c = true) :
    ∀ acc : FloatAcc, scanFloat (ds ++ t) acc = scanFloat t (acc.pushDigits ds) := by
  induction ds with
  | nil => intro acc; rfl
  | cons d ds ih =>
    intro acc
    have hd : isdigit d = true := hds d (List.mem_cons_self _ _)
    have h1 := isdigit_not_other d hd
    have hs : (decide (d = '+') || decide (d = '-')) = false := by simp [h1.2.1, h1.2.2]
    rw [List.cons_append, scanFloat]
    simp only [hs, Bool.and_false, Bool.false_eq_true, if_false, hd, if_true]
    rw [ih (fun c hc => hds c (List.mem_cons_of_mem _ hc))]
    rfl

/-- The main loop stops where the numeral ends. -/
theorem scanFloat_stop (rest : List Char) (hrest : endsNumber rest) (acc : FloatAcc)
    (hE : acc.afterE = false) : scanFloat rest acc = (rest, acc) := by
  cases rest with
  | nil => rfl
  | cons c cs =>
    obtain ⟨h1, h2, h3, h4⟩ := hrest c rfl
    rw [scanFloat]
    simp [hE, h1, h2, h3, h4]

/-- The positional value of a digit run that starts with the digit `d`. -/
theorem decimalValue_cons (d : Char) (ds : List Char) :
    decimalValue (d :: ds) = digitVal d * 10 ^ ds.length + decimalValue ds := by
  simp only [decimalValue, List.reverse_cons, List.map_append, List.map_cons, List.map_nil,
    Nat.ofDigits_append, Nat.ofDigits_singleton, List.length_map, List.length_reverse]
  ring

/-- The positional value of two digit runs written one after the other. -/
theorem decimalValue_append (ds es : List Char) :
    decimalValue (ds ++ es) = decimalValue ds * 10 ^ es.length + decimalValue es := by
  induction ds with
  | nil => simp [decimalValue]
  | cons d ds ih =>
    rw [List.cons_append, decimalValue_cons, decimalValue_cons, ih, List.length_append]
    ring

/-- The accumulator after a run of mantissa digits. -/
theorem pushDigits_mantissa (ds : List Char) : ∀ acc : FloatAcc, acc.foundSci = false →
    ds ≠ [] →
    acc.pushDigits ds
      = { acc with mant := acc.mant * 10 ^ ds.length + decimalValue ds,
                   fracDigits := if acc.foundDec then acc.fracDigits + ds.length
                     else acc.fracDigits,
                   foundMantissa := true, afterE := false } := by
  induction ds with
  | nil => intro acc _ h; exact absurd rfl h
  | cons d ds ih =>
    intro acc hs _
    by_cases hds : ds = []
    · subst hds
      simp [FloatAcc.pushDigits, FloatAcc.pushDigit, hs, decimalValue]
    · have := ih (acc.pushDigit (digitVal d)) (by simp [FloatAcc.pushDigit, hs]) hds
      simp only [FloatAcc.pushDigits, List.foldl_cons] at this ⊢
      rw [this]
      simp only [FloatAcc.pushDigit, hs, Bool.false_eq_true, if_false, decimalValue_cons,
        List.length_cons]
      congr 1
      · ring
      · cases acc.foundDec
        · simp
        · simp
          omega

/-- The accumulator after a run of exponent digits. -/
theorem pushDigits_exponent (ds : List Char) : ∀ acc : FloatAcc, acc.foundSci = true →
    ds ≠ [] →
    acc.pushDigits ds
      = { acc with expVal := acc.expVal * 10 ^ ds.length + decimalValue ds,
                   expDigits := true, foundMantissa := true, afterE := false } := by
  induction ds with
  | nil => intro acc _ h; exact absurd rfl h
  | cons d ds ih =>
    intro acc hs _
    by_cases hds : ds = []
    · subst hds
      simp [FloatAcc.pushDigits, FloatAcc.pushDigit, hs, decimalValue]
    · have := ih (acc.pushDigit (digitVal d)) (by simp [FloatAcc.pushDigit, hs]) hds
      simp only [FloatAcc.pushDigits, List.foldl_cons] at this ⊢
      rw [this]
      simp only [FloatAcc.pushDigit, hs, if_true, decimalValue_cons, List.length_cons]
      congr 1
      ring

/-- The accumulator after a possibly empty run of mantissa digits. -/
theorem pushDigits_mantissa_any (ds : List Char) (acc : FloatAcc) (hs : acc.foundSci = false)
    (hE : acc.afterE = false) :
    acc.pushDigits ds
      = { acc with mant := acc.mant * 10 ^ ds.length + decimalValue ds,
                   fracDigits := if acc.foundDec then acc.fracDigits + ds.length
                     else acc.fracDigits,
                   foundMantissa := acc.foundMantissa || !ds.isEmpty, afterE := false } := by
  by_cases hds : ds = []
  · subst hds
    cases acc
    simp_all [FloatAcc.pushDigits, decimalValue]
  · rw [pushDigits_mantissa ds acc hs hds]
    cases ds with
    | nil => exact absurd rfl hds
    | cons d ds => simp

/-- The accumulator after the sign and the digits before the point, field by field. -/
theorem Numeral.intAcc_eq (n : Numeral) :
    n.intAcc = { neg := decide (n.sign = ['-']), mant := decimalValue n.intDigits,
                 fracDigits := 0, foundMantissa := !n.intDigits.isEmpty, foundDec := false,
                 foundSci := false, afterE := false, expNeg := false, expVal := 0,
                 expDigits := false } := by
  rw [Numeral.intAcc, pushDigits_mantissa_any _ _ rfl rfl]
  simp [FloatAcc.start]

/-- The leading-zeros loop followed by the main loop reads the digits before the point. -/
theorem scanZeros_digits (ds t : List Char) (hds : ∀ c ∈ ds, isdigit c = true)
    (ht : ∀ c, t.head? = some c → isdigit c = false) :
    ∀ acc : FloatAcc, acc.mant = 0 → acc.foundDec = false → acc.foundSci = false →
      acc.afterE = false →
      scanFloat (scanZeros (ds ++ t) acc).1 (scanZeros (ds ++ t) acc).2
        = scanFloat t (acc.pushDigits ds) := by
  induction ds with
  | nil =>
    intro acc _ _ _ _
    cases t with
    | nil => rfl
    | cons c cs =>
      have hc : c ≠ '0' := by
        intro h; subst h
        exact absurd (ht '0' rfl) (by decide)
      simp [scanZeros, hc, FloatAcc.pushDigits]
  | cons d ds ih =>
    intro acc h1 h2 h3 h4
    by_cases hd : d = '0'
    · subst hd
      have hstep : ({ acc with foundMantissa := true } : FloatAcc)
          = acc.pushDigit (digitVal '0') := by
        cases acc
        simp_all [FloatAcc.pushDigit, digitVal]
      rw [List.cons_append, scanZeros, if_pos rfl, hstep,
        ih (fun c hc => hds c (List.mem_cons_of_mem _ hc)) _
          (by simp [FloatAcc.pushDigit, h3, h1, digitVal])
          (by simp [FloatAcc.pushDigit, h3, h2])
          (by simp [FloatAcc.pushDigit, h3])
          (by simp [FloatAcc.pushDigit, h3])]
      rfl
    · rw [List.cons_append, scanZeros, if_neg hd, ← List.cons_append]
      exact scanFloat_digits (d :: ds) t hds acc

/-- The scanner reads the sign and the digits before the point of a numeral. -/
theorem scanSigned_int (n : Numeral) (hn : n.WellFormed) (u : List Char)
    (hu1 : ∀ c, u.head? = some c → isdigit c = false)
    (hu2 : n.intDigits = [] → u.head? = some '.') :
    scanSigned (n.sign ++ n.intDigits ++ u) = scanFloat u n.intAcc := by
  obtain ⟨hsign, hint, _, _, _⟩ := hn
  have key : ∀ neg : Bool,
      scanFloat (scanZeros (n.intDigits ++ u) (FloatAcc.start neg)).1
          (scanZeros (n.intDigits ++ u) (FloatAcc.start neg)).2
        = scanFloat u ((FloatAcc.start neg).pushDigits n.intDigits) :=
    fun neg => scanZeros_digits n.intDigits u hint hu1 (FloatAcc.start neg) rfl rfl rfl rfl
  have hhead : ∀ c, (n.intDigits ++ u).head? = some c → c ≠ '+' ∧ c ≠ '-' := by
    intro c hc
    cases hi : n.intDigits with
    | nil =>
      rw [hi, List.nil_append, hu2 hi] at hc
      simp only [Option.some.injEq] at hc
      subst hc; decide
    | cons d ds =>
      rw [hi] at hc
      simp only [List.cons_append, List.head?_cons, Option.some.injEq] at hc
      subst hc
      have := isdigit_not_other d (hint d (by rw [hi]; exact List.mem_cons_self _ _))
      exact ⟨this.2.1, this.2.2⟩
  unfold Numeral.intAcc
  rcases hsign with hs | hs | hs
  · have h1 : (n.intDigits ++ u).head? ≠ some '-' := fun h => (hhead _ h).2 rfl
    have h2 : (n.intDigits ++ u).head? ≠ some '+' := fun h => (hhead _ h).1 rfl
    rw [hs, List.nil_append, scanSigned, if_neg h1, if_neg h2, key]
    rfl
  · rw [hs, scanSigned]
    have h1 : (['+'] ++ n.intDigits ++ u).head? ≠ some '-' := by
      simp only [List.cons_append, List.nil_append, List.head?_cons, ne_eq,
        Option.some.injEq]
      decide
    have h2 : (['+'] ++ n.intDigits ++ u).head? = some '+' := rfl
    have h3 : (['+'] ++ n.intDigits ++ u).tail = n.intDigits ++ u := rfl
    rw [if_neg h1, if_pos h2, h3, key]
    rfl
  · rw [hs, scanSigned]
    have h1 : (['-'] ++ n.intDigits ++ u).head? = some '-' := rfl
    have h3 : (['-'] ++ n.intDigits ++ u).tail = n.intDigits ++ u := rfl
    rw [if_pos h1, h3, key]
    rfl

/-- The accumulator after the fraction, field by field. -/
theorem Numeral.fracAcc_eq (n : Numeral) :
    n.fracAcc = { neg := decide (n.sign = ['-']),
                  mant := decimalValue (n.intDigits ++ n.fracDigits),
                  fracDigits := n.fracDigits.length,
                  foundMantissa := !(n.intDigits ++ n.fracDigits).isEmpty,
                  foundDec := n.frac.isSome, foundSci := false, afterE := false,
                  expNeg := false, expVal := 0, expDigits := false } := by
  unfold Numeral.fracAcc Numeral.fracDigits
  cases n.frac with
  | none => simp [Numeral.intAcc_eq]
  | some f =>
    simp only [Option.getD_some, Option.isSome_some]
    rw [pushDigits_mantissa_any _ _ (by simp [Numeral.intAcc_eq])
      (by simp [Numeral.intAcc_eq])]
    simp [Numeral.intAcc_eq, decimalValue_append]
    cases n.intDigits <;> cases f <;> rfl

/-- The scanner reads the fraction of a numeral. -/
theorem scanFloat_frac (n : Numeral) (hn : n.WellFormed) (v : List Char) :
    scanFloat (n.fracText ++ v) n.intAcc = scanFloat v n.fracAcc := by
  obtain ⟨_, _, hfrac, _, _⟩ := hn
  unfold Numeral.fracText Numeral.fracAcc
  unfold Numeral.fracDigits at hfrac
  cases hf : n.frac with
  | none => rfl
  | some f =>
    rw [hf] at hfrac
    simp only [Option.getD_some] at hfrac
    simp only [List.cons_append]
    rw [scanFloat]
    have hd : isdigit '.' = false := by decide
    simp only [Numeral.intAcc_eq, Bool.false_and, Bool.false_eq_true, if_false, hd,
      decide_True, Bool.not_false, Bool.and_self, if_true]
    exact scanFloat_digits f v hfrac _

/-- The accumulator after the exponent, field by field. -/
theorem Numeral.expAcc_eq (n : Numeral) (hn : n.WellFormed) :
    n.expAcc = { neg := decide (n.sign = ['-']),
                 mant := decimalValue (n.intDigits ++ n.fracDigits),
                 fracDigits := n.fracDigits.length,
                 foundMantissa := true,
                 foundDec := n.frac.isSome, foundSci := n.exp.isSome, afterE := false,
                 expNeg := (match n.exp with
                   | none => false
                   | some x => decide (x.2.1 = ['-'])),
                 expVal := (match n.exp with
                   | none => 0
                   | some x => decimalValue x.2.2),
                 expDigits := n.exp.isSome } := by
  obtain ⟨_, _, _, hne, hexp⟩ := hn
  have hm : (!(n.intDigits ++ n.fracDigits).isEmpty) = true := by
    cases h : n.intDigits ++ n.fracDigits with
    | nil => exact absurd h hne
    | cons a l => rfl
  unfold Numeral.expAcc
  cases hx : n.exp with
  | none => simp [Numeral.fracAcc_eq, hm]
  | some x =>
    obtain ⟨_, _, _, hd⟩ := hexp x hx
    simp only
    rw [pushDigits_exponent _ _ rfl hd]
    simp [Numeral.fracAcc_eq]

/-- The letter, the sign and the digits of an exponent are read by the main loop. -/
theorem scanFloat_exp (n : Numeral) (hn : n.WellFormed) (rest : List Char) :
    scanFloat (n.expText ++ rest) n.fracAcc = scanFloat rest n.expAcc := by
  have hwf := hn
  obtain ⟨_, _, _, hne, hexp⟩ := hn
  have hm : (!(n.intDigits ++ n.fracDigits).isEmpty) = true := by
    cases h : n.intDigits ++ n.fracDigits with
    | nil => exact absurd h hne
    | cons a l => rfl
  unfold Numeral.expText Numeral.expAcc
  cases hx : n.exp with
  | none => rfl
  | some x =>
    obtain ⟨l, s, d⟩ := x
    obtain ⟨hl, hs, hdig, hd⟩ := hexp (l, s, d) hx
    simp only at hl hs hdig hd ⊢
    have hl1 : isdigit l = false := by rcases hl with rfl | rfl <;> decide
    have hl2 : l ≠ '.' := by rcases hl with rfl | rfl <;> decide
    have hl3 : (decide (l = 'e') || decide (l = 'E')) = true := by
      rcases hl with rfl | rfl <;> decide
    rw [List.cons_append, scanFloat]
    simp only [Numeral.fracAcc_eq, Bool.false_and, Bool.false_eq_true, if_false, hl1, hl2,
      decide_False, hl3, Bool.not_false, Bool.true_and, hm, if_true]
    cases d with
    | nil => exact absurd rfl hd
    | cons d0 ds =>
      have hd0 : isdigit d0 = true := hdig d0 (List.mem_cons_self _ _)
      have hd0s := isdigit_not_other d0 hd0
      have hrun := scanFloat_digits (d0 :: ds) rest hdig
      rcases hs with rfl | rfl | rfl
      · rw [List.nil_append, hrun]
        congr 1
      · rw [List.append_assoc, List.singleton_append, scanFloat]
        simp only [decide_True, Bool.true_or, Bool.and_self, if_true]
        rw [hrun]
        simp
      · rw [List.append_assoc, List.singleton_append, scanFloat]
        simp only [decide_True, Bool.or_true, Bool.and_self, if_true]
        rw [hrun]

/-- The conversion of the accumulator of a well-formed numeral gives the double it denotes. -/
theorem Numeral.expAcc_convert (n : Numeral) (hn : n.WellFormed) :
    n.expAcc.convert = some n.toDouble := by
  rw [Numeral.expAcc_eq n hn]
  unfold FloatAcc.convert Numeral.toDouble Numeral.expValue
  cases hx : n.exp with
  | none => simp
  | some x =>
    simp only [Option.isSome_some, Bool.not_true, Bool.and_false, Bool.or_self,
      Bool.false_eq_true, if_false, signedValue, decide_eq_true_eq]

/-- The scanner reads a well-formed numeral completely and stops where it ends. -/
theorem scanSigned_text (n : Numeral) (hn : n.WellFormed) (rest : List Char)
    (hrest : endsNumber rest) :
    scanSigned (n.text ++ rest) = (rest, n.expAcc) := by
  have hwf := hn
  obtain ⟨_, _, _, hne, hexp⟩ := hn
  have htext : n.text ++ rest
      = n.sign ++ n.intDigits ++ (n.fracText ++ (n.expText ++ rest)) := by
    simp [Numeral.text, List.append_assoc]
  have hu1 : ∀ c, (n.fracText ++ (n.expText ++ rest)).head? = some c → isdigit c = false := by
    intro c hc
    unfold Numeral.fracText at hc
    cases hf : n.frac with
    | some f =>
      rw [hf] at hc
      simp only [List.cons_append, List.head?_cons, Option.some.injEq] at hc
      subst hc; decide
    | none =>
      rw [hf] at hc
      simp only [List.nil_append] at hc
      unfold Numeral.expText at hc
      cases hx : n.exp with
      | some x =>
        rw [hx] at hc
        simp only [List.cons_append, List.head?_cons, Option.some.injEq] at hc
        subst hc
        rcases (hexp x hx).1 with h | h <;> rw [h] <;> decide
      | none =>
        rw [hx] at hc
        exact (hrest c (by simpa using hc)).1
  have hu2 : n.intDigits = [] → (n.fracText ++ (n.expText ++ rest)).head? = some '.' := by
    intro hi
    unfold Numeral.fracText
    cases hf : n.frac with
    | some f => rfl
    | none =>
      exfalso
      apply hne
      simp [hi, Numeral.fracDigits, hf]
  rw [htext, scanSigned_int n hwf _ hu1 hu2, scanFloat_frac n hwf, scanFloat_exp n hwf]
  exact scanFloat_stop rest hrest _ (by rw [Numeral.expAcc_eq n hwf])

/-- Extraction of a `double` from a good stream that holds white space, a well-formed numeral
and a rest that does not continue it: the value is the double the numeral denotes, unless that
is infinite, in which case the extraction fails. -/
theorem extractDouble_numeral (ws : List Char) (n : Numeral) (rest : List Char)
    (hws : ∀ c ∈ ws, isspace c = true) (hn : n.WellFormed) (hrest : endsNumber rest) :
    stringstream.extractDouble { buf := ws ++ n.text ++ rest, eofbit := false, failbit := false }
      = ({ buf := rest, eofbit := decide (rest = []),
           failbit := !n.toDouble.isFinite },
         if n.toDouble.isFinite then some n.toDouble else none) := by
  have hwf := hn
  obtain ⟨hsign, hint, _, hne, _⟩ := hn
  have hhead : ∀ c, (n.text ++ rest).head? = some c → isspace c = false := by
    intro c hc
    have h1 : n.text ++ rest
        = n.sign ++ (n.intDigits ++ (n.fracText ++ (n.expText ++ rest))) := by
      simp [Numeral.text, List.append_assoc]
    rw [h1] at hc
    rcases hsign with hs | hs | hs
    · rw [hs, List.nil_append] at hc
      cases hi : n.intDigits with
      | cons d ds =>
        rw [hi] at hc
        simp only [List.cons_append, List.head?_cons, Option.some.injEq] at hc
        subst hc
        exact (isdigit_not_other d (hint d (by rw [hi]; exact List.mem_cons_self _ _))).1
      | nil =>
        rw [hi, List.nil_append] at hc
        unfold Numeral.fracText at hc
        cases hf : n.frac with
        | some f =>
          rw [hf] at hc
          simp only [List.cons_append, List.head?_cons, Option.some.injEq] at hc
          subst hc; decide
        | none =>
          exfalso
          apply hne
          simp [hi, Numeral.fracDigits, hf]
    · rw [hs] at hc
      simp only [List.cons_append, List.nil_append, List.head?_cons, Option.some.injEq] at hc
      subst hc; decide
    · rw [hs] at hc
      simp only [List.cons_append, List.nil_append, List.head?_cons, Option.some.injEq] at hc
      subst hc; decide
  have hdrop : (ws ++ n.text ++ rest).dropWhile isspace = n.text ++ rest := by
    rw [List.append_assoc]
    exact dropWhile_isspace_append ws _ hws hhead
  have hnn : n.text ++ rest ≠ [] := by
    intro h
    apply hne
    have : n.text = [] := (List.append_eq_nil.1 h).1
    simp only [Numeral.text, List.append_eq_nil] at this
    obtain ⟨⟨⟨_, hi⟩, hft⟩, _⟩ := this
    unfold Numeral.fracText at hft
    cases hf : n.frac with
    | some f => rw [hf] at hft; simp at hft
    | none => simp [hi, Numeral.fracDigits, hf]
  unfold stringstream.extractDouble stringstream.sentry stringstream.good
  simp only [Bool.not_false, Bool.and_self, Bool.not_true, Bool.false_eq_true, if_false, hdrop,
    hnn, scanSigned_text n hwf rest hrest, Numeral.expAcc_convert n hwf]
  cases hv : n.toDouble with
  | nan => simp [Double.isFinite]
  | inf neg => simp [Double.isFinite]
  | fin neg m e => simp [Double.isFinite]

/-- A run of characters that are not white space, followed by white space or nothing, is the
next token. -/
theorem token_split (tok rest : List Char) (htok : ∀ c ∈ tok, isspace c = false)
    (hrest : ∀ c, rest.head? = some c → isspace c = true) :
    (tok ++ rest).takeWhile (fun c => !isspace c) = tok
    ∧ (tok ++ rest).dropWhile (fun c => !isspace c) = rest := by
  induction tok with
  | nil =>
    cases rest with
    | nil => exact ⟨rfl, rfl⟩
    | cons c cs => simp [List.takeWhile_cons, List.dropWhile_cons, hrest c rfl]
  | cons d ds ih =>
    have hd : isspace d = false := htok d (List.mem_cons_self _ _)
    have := ih (fun c hc => htok c (List.mem_cons_of_mem _ hc))
    simp only [List.cons_append, List.takeWhile_cons, List.dropWhile_cons, hd, Bool.not_false,
      if_true, this, and_self]

/-- Extraction of a `std::string` from a good stream that holds white space, a token and a rest
that is empty or starts with white space. -/
theorem extractString_token (ws tok rest : List Char) (hws : ∀ c ∈ ws, isspace c = true)
    (htok : ∀ c ∈ tok, isspace c = false) (hne : tok ≠ [])
    (hrest : ∀ c, rest.head? = some c → isspace c = true) :
    stringstream.extractString { buf := ws ++ tok ++ rest, eofbit := false, failbit := false }
      = ({ buf := rest, eofbit := decide (rest = []), failbit := false }, tok) := by
  have hhead : ∀ c, (tok ++ rest).head? = some c → isspace c = false := by
    intro c hc
    cases tok with
    | nil => exact absurd rfl hne
    | cons d ds =>
      simp only [List.cons_append, List.head?_cons, Option.some.injEq] at hc
      subst hc
      exact htok _ (List.mem_cons_self _ _)
  have hdrop : (ws ++ tok ++ rest).dropWhile isspace = tok ++ rest := by
    rw [List.append_assoc]
    exact dropWhile_isspace_append ws _ hws hhead
  have hnn : tok ++ rest ≠ [] := by
    intro h; exact hne (List.append_eq_nil.1 h).1
  obtain ⟨h1, h2⟩ := token_split tok rest htok hrest
  unfold stringstream.extractString stringstream.sentry stringstream.good
  simp only [Bool.not_false, Bool.and_self, Bool.not_true, Bool.false_eq_true, if_false, hdrop,
    hnn, h1, h2, hne, decide_False]

/-- White space and the equals sign do not continue a numeral. -/
theorem endsNumber_of_space_or_equals (rest : List Char)
    (h : ∀ c, rest.head? = some c → isspace c = true ∨ c = '=') : endsNumber rest := by
  intro c hc
  rcases h c hc with h | h
  · simp only [isspace, Bool.or_eq_true, decide_eq_true_eq, Bool.and_eq_true] at h
    refine ⟨?_, ?_, ?_, ?_⟩
    · simp only [isdigit, Bool.and_eq_false_iff, decide_eq_false_iff_not]
      omega
    all_goals (rintro rfl; revert h; decide)
  · subst h
    exact ⟨by decide, by decide, by decide, by decide⟩

/-- A well-formed numeral starts with a digit, a sign or a point. -/
theorem Numeral.text_head (n : Numeral) (hn : n.WellFormed) :
    ∃ c cs, n.text = c :: cs ∧ (isdigit c = true ∨ c = '+' ∨ c = '-' ∨ c = '.') := by
  obtain ⟨hsign, hint, _, hne, _⟩ := hn
  unfold Numeral.text
  rcases hsign with hs | hs | hs
  · rw [hs, List.nil_append]
    cases hi : n.intDigits with
    | cons d ds =>
      exact ⟨d, _, rfl,
        Or.inl (hint d (by rw [hi]; exact List.mem_cons_self _ _))⟩
    | nil =>
      unfold Numeral.fracText
      cases hf : n.frac with
      | some f => exact ⟨'.', _, rfl, by simp⟩
      | none =>
        exfalso
        apply hne
        simp [hi, Numeral.fracDigits, hf]
  · rw [hs]
    exact ⟨'+', _, rfl, by simp⟩
  · rw [hs]
    exact ⟨'-', _, rfl, by simp⟩

/-- A character that can start a numeral is neither white space nor `#`. -/
theorem number_start_char (c : Char)
    (h : isdigit c = true ∨ c = '+' ∨ c = '-' ∨ c = '.') : isspace c = false ∧ c ≠ '#' := by
  rcases h with h | h | h | h
  · refine ⟨(isdigit_not_other c h).1, ?_⟩
    rintro rfl
    exact absurd h (by decide)
  · subst h; exact ⟨by decide, by decide⟩
  · subst h; exact ⟨by decide, by decide⟩
  · subst h; exact ⟨by decide, by decide⟩

/-- White space is not `#`. -/
theorem isspace_ne_hash (c : Char) (h : isspace c = true) : c ≠ '#' := by
  rintro rfl
  exact absurd h (by decide)

/-- The loop body of `loadCalibrationData` on a line that holds a channel numeral, the token `=`
followed by white space, and an energy numeral: the point is appended whatever follows the energy
numeral, as long as it does not continue it. -/
theorem loadCalibrationLine_point (ws0 ws1 ws2 tail : List Char) (chan en : Numeral)
    (calibrations : List CalibrationData) (log : List Diag)
    (h0 : ∀ c ∈ ws0, isspace c = true) (h1 : ∀ c ∈ ws1, isspace c = true)
    (h2 : ∀ c ∈ ws2, isspace c = true) (h2ne : ws2 ≠ [])
    (hchan : chan.WellFormed) (hen : en.WellFormed)
    (hcf : chan.toDouble.isFinite = true) (hef : en.toDouble.isFinite = true)
    (htail : endsNumber tail) :
    loadCalibrationLine (ws0 ++ chan.text ++ ws1 ++ ['='] ++ ws2 ++ en.text ++ tail)
        calibrations log
      = (calibrations ++ [{ channel := chan.toDouble, energy := en.toDouble }], log) := by
  have hline : ws0 ++ chan.text ++ ws1 ++ ['='] ++ ws2 ++ en.text ++ tail
      = ws0 ++ chan.text ++ (ws1 ++ ['='] ++ (ws2 ++ en.text ++ tail)) := by
    simp only [List.append_assoc]
  obtain ⟨c0, cs0, htext, hc0⟩ := Numeral.text_head chan hchan
  have hc0s := number_start_char c0 hc0
  have hempty : (ws0 ++ chan.text ++ (ws1 ++ ['='] ++ (ws2 ++ en.text ++ tail))).isEmpty
      = false := by
    rw [htext]; cases ws0 <;> rfl
  have hhash : (ws0 ++ chan.text ++ (ws1 ++ ['='] ++ (ws2 ++ en.text ++ tail))).head?
      ≠ some '#' := by
    rw [htext]
    cases ws0 with
    | nil =>
      simp only [List.nil_append, List.cons_append, List.head?_cons, ne_eq, Option.some.injEq]
      exact hc0s.2
    | cons w ws =>
      simp only [List.cons_append, List.head?_cons, ne_eq, Option.some.injEq]
      exact isspace_ne_hash w (h0 w (List.mem_cons_self _ _))
  have hr2 : ∀ c, (ws2 ++ en.text ++ tail).head? = some c → isspace c = true := by
    intro c hc
    cases ws2 with
    | nil => exact absurd rfl h2ne
    | cons w ws =>
      simp only [List.cons_append, List.head?_cons, Option.some.injEq] at hc
      subst hc
      exact h2 _ (List.mem_cons_self _ _)
  have hr2ne : ws2 ++ en.text ++ tail ≠ [] := by
    cases ws2 with
    | nil => exact absurd rfl h2ne
    | cons w ws => simp
  have hr1 : endsNumber (ws1 ++ ['='] ++ (ws2 ++ en.text ++ tail)) := by
    apply endsNumber_of_space_or_equals
    intro c hc
    cases ws1 with
    | nil =>
      simp only [List.nil_append, List.cons_append, List.head?_cons, Option.some.injEq] at hc
      exact Or.inr hc.symm
    | cons w ws =>
      simp only [List.cons_append, List.head?_cons, Option.some.injEq] at hc
      subst hc
      exact Or.inl (h1 _ (List.mem_cons_self _ _))
  have hr1ne : ws1 ++ ['='] ++ (ws2 ++ en.text ++ tail) ≠ [] := by simp
  have e1 := extractDouble_numeral ws0 chan _ h0 hchan hr1
  have e2 := extractString_token ws1 ['='] (ws2 ++ en.text ++ tail) h1
    (by intro c hc; rw [List.mem_singleton.1 hc]; decide) (by simp) hr2
  have e3 := extractDouble_numeral ws2 en tail h2 hen htail
  simp only [hcf, hef, Bool.not_true, if_true, hr1ne, hr2ne, decide_False] at e1 e2 e3
  have hEq : "=".toList = ['='] := rfl
  rw [hline]
  unfold loadCalibrationLine
  simp only [hempty, hhash, Bool.false_or, decide_False, Bool.false_eq_true, if_false,
    stringstream.init, e1, e2, e3, hEq, Bool.not_false, Bool.true_and, decide_True, if_true]

/-! ## Loading the calibration file -/

/-- White space does not continue a numeral. -/
theorem endsNumber_of_spaces (ws : List Char) (h : ∀ c ∈ ws, isspace c = true) :
    endsNumber ws := by
  apply endsNumber_of_space_or_equals
  intro c hc
  cases ws with
  | nil => simp at hc
  | cons w ws =>
    simp only [List.head?_cons, Option.some.injEq] at hc
    subst hc
    exact Or.inl (h _ (List.mem_cons_self _ _))

/-- Extraction of a `double` from a stream that holds white space only fails. -/
theorem extractDouble_spaces (ws : List Char) (h : ∀ c ∈ ws, isspace c = true) :
    (stringstream.extractDouble (stringstream.init ws)).2 = none := by
  have hdrop : ws.dropWhile isspace = [] := by
    rw [List.dropWhile_eq_nil_iff]
    exact h
  simp [stringstream.extractDouble, stringstream.sentry, stringstream.good,
    stringstream.init, hdrop]

/-- A line whose channel cannot be read adds no point. -/
theorem loadCalibrationLine_channel_fails (line : List Char)
    (calibrations : List CalibrationData) (log : List Diag)
    (h : (stringstream.extractDouble (stringstream.init line)).2 = none) :
    (loadCalibrationLine line calibrations log).1 = calibrations := by
  unfold loadCalibrationLine
  split
  · rfl
  · simp only []
    cases hx : (stringstream.init line).extractDouble with
    | mk a b =>
      rw [hx] at h
      simp only at h
      subst h
      rfl

/-- The loop body of `loadCalibrationData` on one line of a well-formed file: the point written
on the line, if any, is appended. -/
theorem loadCalibrationLine_wellFormed (it : CalLine) (h : it.WellFormed)
    (calibrations : List CalibrationData) (log : List Diag) :
    (loadCalibrationLine it.text calibrations log).1 = calibrations ++ it.point?.toList := by
  cases it with
  | blank ws =>
    simp only [CalLine.text, CalLine.point?, Option.toList, List.append_nil]
    exact loadCalibrationLine_channel_fails ws calibrations log (extractDouble_spaces ws h)
  | comment body =>
    simp [CalLine.text, CalLine.point?, loadCalibrationLine]
  | point channel energy ws1 ws2 ws3 =>
    obtain ⟨hc, he, hcf, hef, _, h2ne, h1, h2, h3⟩ := h
    have := loadCalibrationLine_point [] ws1 ws2 ws3 channel energy calibrations log
      (by simp) h1 h2 h2ne hc he hcf hef (endsNumber_of_spaces ws3 h3)
    simp only [List.nil_append] at this
    simp only [CalLine.text, CalLine.point?, Option.toList, this]

/-- The loop of `loadCalibrationData` on a well-formed file. -/
theorem loadCalibrationLoop_wellFormed (items : List CalLine) :
    (∀ it ∈ items, it.WellFormed) →
    ∀ (calibrations : List CalibrationData) (log : List Diag),
      (loadCalibrationLoop (items.map CalLine.text) calibrations log).1
        = calibrations ++ items.filterMap CalLine.point? := by
  induction items with
  | nil => intro _ calibrations log; simp [loadCalibrationLoop]
  | cons it rest ih =>
    intro h calibrations log
    have hit := loadCalibrationLine_wellFormed it (h it (List.mem_cons_self _ _))
      calibrations log
    simp only [List.map_cons, loadCalibrationLoop]
    rw [ih (fun x hx => h x (List.mem_cons_of_mem _ hx)), hit]
    cases hp : it.point? with
    | none => simp [List.filterMap_cons, hp]
    | some p => simp [List.filterMap_cons, hp]

/-- C8 (amended): on a calibration file made only of blank lines, lines starting with `#` and
lines of the form `<channel> = <energy>` whose two numerals denote finite doubles,
`loadCalibrationData` returns true and appends exactly one point per `<channel> = <energy>` line,
in file order, holding the doubles nearest to the two values written on the line; blank and `#`
lines add nothing, and the entries already in the list stay as they are. -/
theorem loadCalibrationData_wellFormed (items : List CalLine)
    (calibrations : List CalibrationData) (h : ∀ it ∈ items, it.WellFormed) :
    (loadCalibrationData (some (items.map CalLine.text)) calibrations).1 = true
    ∧ (loadCalibrationData (some (items.map CalLine.text)) calibrations).2.1
      = calibrations ++ items.filterMap CalLine.point? := by
  rw [loadCalibrationData_some]
  exact ⟨rfl, loadCalibrationLoop_wellFormed items h calibrations []⟩

set_option maxRecDepth 8000 in
/-- Witness for C8 (amended): a comment line, an empty line and the line `100 = 5.9` load the
single point (100, 5.9). -/
theorem loadCalibrationData_wellFormed_witness :
    (loadCalibrationData (some ["# calibration".toList, [], "100 = 5.9".toList]) []).1 = true
    ∧ (loadCalibrationData (some ["# calibration".toList, [], "100 = 5.9".toList]) []).2.1
      = [{ channel := Double.ofInt 100, energy := Double.round false 59 10 0 }] := by
  have h := loadCalibrationData_wellFormed
    [CalLine.comment " calibration".toList, CalLine.blank [],
      CalLine.point ⟨[], "100".toList, none, none⟩ ⟨[], "5".toList, some "9".toList, none⟩
        " ".toList " ".toList []] []
    (by
      intro it hit
      simp only [List.mem_cons, List.mem_singleton, List.not_mem_nil, or_false] at hit
      rcases hit with rfl | rfl | rfl
      · trivial
      · intro c hc; simp at hc
      · refine ⟨⟨Or.inl rfl, by decide, by decide, by decide, by intro x hx; simp at hx⟩,
          ⟨Or.inl rfl, by decide, by decide, by decide, by intro x hx; simp at hx⟩,
          by decide, by decide, by decide, by decide, by decide, by decide, by decide⟩)
  have ht : List.map CalLine.text
      [CalLine.comment " calibration".toList, CalLine.blank [],
        CalLine.point ⟨[], "100".toList, none, none⟩ ⟨[], "5".toList, some "9".toList, none⟩
          " ".toList " ".toList []]
      = ["# calibration".toList, [], "100 = 5.9".toList] := by decide
  have hp : List.filterMap CalLine.point?
      [CalLine.comment " calibration".toList, CalLine.blank [],
        CalLine.point ⟨[], "100".toList, none, none⟩ ⟨[], "5".toList, some "9".toList, none⟩
          " ".toList " ".toList []]
      = [{ channel := Double.ofInt 100, energy := Double.round false 59 10 0 }] := by decide
  rw [ht, hp] at h
  exact h

set_option maxRecDepth 20000 in
set_option exponentiation.threshold 2000 in
/-- C8 (counterexample): the file with the single line `1e309 = 5` is made only of lines of the
form `<channel> = <energy>`, but the channel is too large for a `double`, the extraction fails
and no point is appended. -/
theorem overflowing_channel_is_skipped :
    loadCalibrationData (some ["1e309 = 5".toList]) []
      = (true, [], [Diag.channelNotRead "1e309 = 5".toList]) := by
  decide

/-- The scanner accepts nothing from a text that cannot start a number. -/
theorem scanSigned_noNumber (t : List Char) (ht : startsNoNumber t) :
    (scanSigned t).2.convert = none := by
  cases t with
  | nil => rfl
  | cons c cs =>
    obtain ⟨h1, h2, h3, h4⟩ := ht c rfl
    have hz : c ≠ '0' := by
      rintro rfl
      exact absurd h1 (by decide)
    have hm : (List.head? (c :: cs) = some '-') = False := by simp [h3]
    have hp : (List.head? (c :: cs) = some '+') = False := by simp [h2]
    simp only [scanSigned, hm, hp, if_false, scanZeros, hz, scanFloat, FloatAcc.start,
      Bool.false_and, Bool.false_eq_true, h1, h4, decide_False, Bool.and_false]
    rfl

/-- Extraction of a `double` fails when, after the white space, nothing or no number follows. -/
theorem extractDouble_noNumber (ws t : List Char) (e : Bool)
    (hws : ∀ c ∈ ws, isspace c = true)
    (hsp : ∀ c, t.head? = some c → isspace c = false) (ht : startsNoNumber t) :
    (stringstream.extractDouble { buf := ws ++ t, eofbit := e, failbit := false }).2 = none := by
  unfold stringstream.extractDouble stringstream.sentry stringstream.good
  cases e with
  | true => rfl
  | false =>
    simp only [Bool.not_false, Bool.and_self, Bool.not_true, Bool.false_eq_true, if_false,
      dropWhile_isspace_append ws t hws hsp]
    by_cases h0 : t = []
    · simp only [h0, if_true]
    · have hc := scanSigned_noNumber t ht
      simp only [h0, if_false, hc]

/-- A line adds no point when, once the channel is read, the next token is not `=` or the energy
cannot be read. -/
theorem loadCalibrationLine_skip (line : List Char) (calibrations : List CalibrationData)
    (log : List Diag)
    (h : ∀ ss1 channel, stringstream.extractDouble (stringstream.init line)
        = (ss1, some channel) →
      (ss1.extractString).1.failbit = true ∨ (ss1.extractString).2 ≠ ['=']
      ∨ ((ss1.extractString).1.extractDouble).2 = none) :
    (loadCalibrationLine line calibrations log).1 = calibrations := by
  unfold loadCalibrationLine
  split
  · rfl
  · simp only []
    cases hx : (stringstream.init line).extractDouble with
    | mk ss1 v =>
      cases v with
      | none => rfl
      | some channel =>
        have hEq : "=".toList = ['='] := rfl
        simp only [hEq]
        rcases h ss1 channel hx with h1 | h1 | h1
        · simp [h1]
        · simp [h1]
        · split
          · cases hy : (ss1.extractString).1.extractDouble with
            | mk a b =>
              rw [hy] at h1
              simp only at h1
              subst h1
              rfl
          · rfl

/-- The token `ss >> eq` reads is the next white-space-delimited token, unless the extraction
fails. -/
theorem extractString_nextToken (rest : List Char) (e : Bool) :
    (stringstream.extractString { buf := rest, eofbit := e, failbit := false }).1.failbit = true
    ∨ (stringstream.extractString { buf := rest, eofbit := e, failbit := false }).2
      = nextToken rest := by
  unfold stringstream.extractString stringstream.sentry stringstream.good nextToken
  cases e with
  | true => left; rfl
  | false =>
    by_cases h0 : rest.dropWhile isspace = []
    · left; simp [h0]
    · right; simp [h0]

/-- A line whose channel is a numeral but whose next token is not `=` adds no point. -/
theorem loadCalibrationLine_equals (ws rest : List Char) (n : Numeral)
    (calibrations : List CalibrationData) (log : List Diag)
    (hws : ∀ c ∈ ws, isspace c = true) (hn : n.WellFormed) (hrest : endsNumber rest)
    (htok : nextToken rest ≠ ['=']) :
    (loadCalibrationLine (ws ++ n.text ++ rest) calibrations log).1 = calibrations := by
  apply loadCalibrationLine_skip
  intro ss1 channel hx
  have e1 := extractDouble_numeral ws n rest hws hn hrest
  rw [stringstream.init, e1] at hx
  simp only [Prod.mk.injEq] at hx
  obtain ⟨hss, hv⟩ := hx
  by_cases hf : n.toDouble.isFinite = true
  · simp only [hf, Bool.not_true] at hss
    subst hss
    rcases extractString_nextToken rest (decide (rest = [])) with h | h
    · exact Or.inl h
    · right; left
      rw [h]
      exact htok
  · simp [hf] at hv

/-- A line whose channel is a numeral followed by the token `=`, but whose energy is no number,
adds no point. -/
theorem loadCalibrationLine_energy (ws0 ws1 ws2 t : List Char) (n : Numeral)
    (calibrations : List CalibrationData) (log : List Diag)
    (h0 : ∀ c ∈ ws0, isspace c = true) (hn : n.WellFormed)
    (h1 : ∀ c ∈ ws1, isspace c = true) (h2 : ∀ c ∈ ws2, isspace c = true)
    (hsp : ∀ c, t.head? = some c → isspace c = false ∧ ws2 ≠ []) (ht : startsNoNumber t) :
    (loadCalibrationLine (ws0 ++ n.text ++ ws1 ++ ['='] ++ ws2 ++ t) calibrations log).1
      = calibrations := by
  have hline : ws0 ++ n.text ++ ws1 ++ ['='] ++ ws2 ++ t
      = ws0 ++ n.text ++ (ws1 ++ ['='] ++ (ws2 ++ t)) := by
    simp only [List.append_assoc]
  have hr2 : ∀ c, (ws2 ++ t).head? = some c → isspace c = true := by
    intro c hc
    cases ws2 with
    | nil =>
      exfalso
      exact (hsp c (by simpa using hc)).2 rfl
    | cons w ws =>
      simp only [List.cons_append, List.head?_cons, Option.some.injEq] at hc
      subst hc
      exact h2 _ (List.mem_cons_self _ _)
  have hr1 : endsNumber (ws1 ++ ['='] ++ (ws2 ++ t)) := by
    apply endsNumber_of_space_or_equals
    intro c hc
    cases ws1 with
    | nil =>
      simp only [List.nil_append, List.cons_append, List.head?_cons, Option.some.injEq] at hc
      exact Or.inr hc.symm
    | cons w ws =>
      simp only [List.cons_append, List.head?_cons, Option.some.injEq] at hc
      subst hc
      exact Or.inl (h1 _ (List.mem_cons_self _ _))
  have hr1ne : ws1 ++ ['='] ++ (ws2 ++ t) ≠ [] := by simp
  rw [hline]
  apply loadCalibrationLine_skip
  intro ss1 channel hx
  have e1 := extractDouble_numeral ws0 n _ h0 hn hr1
  rw [stringstream.init, e1] at hx
  simp only [Prod.mk.injEq] at hx
  obtain ⟨hss, hv⟩ := hx
  by_cases hf : n.toDouble.isFinite = true
  · simp only [hf, Bool.not_true, hr1ne, decide_False] at hss
    subst hss
    have e2 := extractString_token ws1 ['='] (ws2 ++ t) h1
      (by intro c hc; rw [List.mem_singleton.1 hc]; decide) (by simp) hr2
    right; right
    rw [e2]
    exact extractDouble_noNumber ws2 t _ h2 (fun c hc => (hsp c hc).1) ht
  · simp [hf] at hv

/-- A malformed line adds no point. -/
theorem loadCalibrationLine_malformed (line : List Char) (h : MalformedLine line)
    (calibrations : List CalibrationData) (log : List Diag) :
    (loadCalibrationLine line calibrations log).1 = calibrations := by
  cases h with
  | channel ws t hws hsp ht =>
    exact loadCalibrationLine_channel_fails _ calibrations log
      (extractDouble_noNumber ws t false hws hsp ht)
  | equals ws rest n hws hn hrest htok =>
    exact loadCalibrationLine_equals ws rest n calibrations log hws hn hrest htok
  | energy ws0 ws1 ws2 t n h0 hn h1 h2 hsp ht =>
    exact loadCalibrationLine_energy ws0 ws1 ws2 t n calibrations log h0 hn h1 h2 hsp ht

/-- The points a line adds do not depend on the messages written so far. -/
theorem loadCalibrationLine_log (line : List Char) (calibrations : List CalibrationData)
    (log1 log2 : List Diag) :
    (loadCalibrationLine line calibrations log1).1
      = (loadCalibrationLine line calibrations log2).1 := by
  unfold loadCalibrationLine
  split
  · rfl
  · simp only []
    split
    · split
      · split <;> rfl
      · rfl
    · rfl

/-- The points the loop loads do not depend on the messages written so far. -/
theorem loadCalibrationLoop_log (lines : List (List Char)) :
    ∀ (calibrations : List CalibrationData) (log1 log2 : List Diag),
      (loadCalibrationLoop lines calibrations log1).1
        = (loadCalibrationLoop lines calibrations log2).1 := by
  induction lines with
  | nil => intro _ _ _; rfl
  | cons line rest ih =>
    intro calibrations log1 log2
    simp only [loadCalibrationLoop]
    rw [loadCalibrationLine_log line calibrations log1 log2]
    exact ih _ _ _

/-- The loop on two pieces of a file, one after the other. -/
theorem loadCalibrationLoop_append (pre post : List (List Char)) :
    ∀ (calibrations : List CalibrationData) (log : List Diag),
      loadCalibrationLoop (pre ++ post) calibrations log
        = loadCalibrationLoop post (loadCalibrationLoop pre calibrations log).1
            (loadCalibrationLoop pre calibrations log).2 := by
  induction pre with
  | nil => intro _ _; rfl
  | cons line rest ih =>
    intro calibrations log
    simp only [List.cons_append, loadCalibrationLoop]
    exact ih _ _

/-! ## The floating-point scanner on arbitrary text -/

/-- The accumulator after a possibly empty run of exponent digits. -/
theorem pushDigits_exponent_any (ds : List Char) (acc : FloatAcc) (hs : acc.foundSci = true)
    (hm : acc.foundMantissa = true) :
    acc.pushDigits ds
      = { acc with expVal := acc.expVal * 10 ^ ds.length + decimalValue ds,
                   expDigits := acc.expDigits || !ds.isEmpty,
                   afterE := acc.afterE && ds.isEmpty } := by
  by_cases hds : ds = []
  · subst hds
    cases acc
    simp_all [FloatAcc.pushDigits, decimalValue]
  · rw [pushDigits_exponent ds acc hs hds]
    cases ds with
    | nil => exact absurd rfl hds
    | cons d ds =>
      cases acc
      simp_all

/-- The scanner reads a sign and a run of digits. -/
theorem scanSigned_int_gen (n : Numeral)
    (hsign : n.sign = [] ∨ n.sign = ['+'] ∨ n.sign = ['-'])
    (hint : ∀ c ∈ n.intDigits, isdigit c = true) (u : List Char)
    (hu1 : ∀ c, u.head? = some c → isdigit c = false)
    (hu2 : n.sign = [] → n.intDigits = [] → ∀ c, u.head? = some c → c ≠ '+' ∧ c ≠ '-') :
    scanSigned (n.sign ++ n.intDigits ++ u) = scanFloat u n.intAcc := by
  have key : ∀ neg : Bool,
      scanFloat (scanZeros (n.intDigits ++ u) (FloatAcc.start neg)).1
          (scanZeros (n.intDigits ++ u) (FloatAcc.start neg)).2
        = scanFloat u ((FloatAcc.start neg).pushDigits n.intDigits) :=
    fun neg => scanZeros_digits n.intDigits u hint hu1 (FloatAcc.start neg) rfl rfl rfl rfl
  unfold Numeral.intAcc
  rcases hsign with hs | hs | hs
  · have hhead : ∀ c, (n.intDigits ++ u).head? = some c → c ≠ '+' ∧ c ≠ '-' := by
      intro c hc
      cases hi : n.intDigits with
      | nil =>
        rw [hi, List.nil_append] at hc
        exact hu2 hs hi c hc
      | cons d ds =>
        rw [hi] at hc
        simp only [List.cons_append, List.head?_cons, Option.some.injEq] at hc
        subst hc
        have := isdigit_not_other d (hint d (by rw [hi]; exact List.mem_cons_self _ _))
        exact ⟨this.2.1, this.2.2⟩
    have h1 : (n.intDigits ++ u).head? ≠ some '-' := fun h => (hhead _ h).2 rfl
    have h2 : (n.intDigits ++ u).head? ≠ some '+' := fun h => (hhead _ h).1 rfl
    rw [hs, List.nil_append, scanSigned, if_neg h1, if_neg h2, key]
    rfl
  · rw [hs, scanSigned]
    have h1 : (['+'] ++ n.intDigits ++ u).head? ≠ some '-' := by
      simp only [List.cons_append, List.nil_append, List.head?_cons, ne_eq,
        Option.some.injEq]
      decide
    have h2 : (['+'] ++ n.intDigits ++ u).head? = some '+' := rfl
    have h3 : (['+'] ++ n.intDigits ++ u).tail = n.intDigits ++ u := rfl
    rw [if_neg h1, if_pos h2, h3, key]
    rfl
  · rw [hs, scanSigned]
    have h1 : (['-'] ++ n.intDigits ++ u).head? = some '-' := rfl
    have h3 : (['-'] ++ n.intDigits ++ u).tail = n.intDigits ++ u := rfl
    rw [if_pos h1, h3, key]
    rfl

/-- The scanner reads a point and a run of digits. -/
theorem scanFloat_frac_gen (n : Numeral) (hfrac : ∀ c ∈ n.fracDigits, isdigit c = true)
    (v : List Char) :
    scanFloat (n.fracText ++ v) n.intAcc = scanFloat v n.fracAcc := by
  unfold Numeral.fracText Numeral.fracAcc
  unfold Numeral.fracDigits at hfrac
  cases hf : n.frac with
  | none => rfl
  | some f =>
    rw [hf] at hfrac
    simp only [Option.getD_some] at hfrac
    simp only [List.cons_append]
    rw [scanFloat]
    have hd : isdigit '.' = false := by decide
    simp only [Numeral.intAcc_eq, Bool.false_and, Bool.false_eq_true, if_false, hd,
      decide_True, Bool.not_false, Bool.and_self, if_true]
    exact scanFloat_digits f v hfrac _

/-- The accumulator after an exponent whose digits may be missing, field by field. -/
theorem Numeral.sciAcc_eq (n : Numeral) (hn : n.Shaped) :
    n.sciAcc = { neg := decide (n.sign = ['-']),
                 mant := decimalValue (n.intDigits ++ n.fracDigits),
                 fracDigits := n.fracDigits.length,
                 foundMantissa := !(n.intDigits ++ n.fracDigits).isEmpty,
                 foundDec := n.frac.isSome, foundSci := n.exp.isSome,
                 afterE := (match n.exp with
                   | none => false
                   | some x => decide (x.2.1 = []) && x.2.2.isEmpty),
                 expNeg := (match n.exp with
                   | none => false
                   | some x => decide (x.2.1 = ['-'])),
                 expVal := (match n.exp with
                   | none => 0
                   | some x => decimalValue x.2.2),
                 expDigits := (match n.exp with
                   | none => false
                   | some x => !x.2.2.isEmpty) } := by
  obtain ⟨_, _, _, hexp⟩ := hn
  unfold Numeral.sciAcc
  cases hx : n.exp with
  | none => simp [Numeral.fracAcc_eq]
  | some x =>
    have hne := (hexp x hx).1
    have hm : (!(n.intDigits ++ n.fracDigits).isEmpty) = true := by
      cases h : n.intDigits ++ n.fracDigits with
      | nil => exact absurd h hne
      | cons a l => rfl
    simp only
    rw [pushDigits_exponent_any _ _ rfl (by simp only [Numeral.fracAcc_eq, hm])]
    simp [Numeral.fracAcc_eq, hm]

/-- The main loop reads the letter, the sign and the digits of an exponent, whether or not the
digits are there. -/
theorem scanFloat_exp_gen (n : Numeral) (hn : n.Shaped) (rest : List Char) :
    scanFloat (n.expText ++ rest) n.fracAcc = scanFloat rest n.sciAcc := by
  obtain ⟨_, _, _, hexp⟩ := hn
  unfold Numeral.expText Numeral.sciAcc
  cases hx : n.exp with
  | none => rfl
  | some x =>
    obtain ⟨l, s, d⟩ := x
    obtain ⟨hne, hl, hs, hdig⟩ := hexp (l, s, d) hx
    simp only at hl hs hdig ⊢
    have hm : (!(n.intDigits ++ n.fracDigits).isEmpty) = true := by
      cases h : n.intDigits ++ n.fracDigits with
      | nil => exact absurd h hne
      | cons a l => rfl
    have hl1 : isdigit l = false := by rcases hl with rfl | rfl <;> decide
    have hl2 : l ≠ '.' := by rcases hl with rfl | rfl <;> decide
    have hl3 : (decide (l = 'e') || decide (l = 'E')) = true := by
      rcases hl with rfl | rfl <;> decide
    rw [List.cons_append, scanFloat]
    simp only [Numeral.fracAcc_eq, Bool.false_and, Bool.false_eq_true, if_false, hl1, hl2,
      decide_False, hl3, Bool.not_false, Bool.true_and, hm, if_true]
    have hrun := scanFloat_digits d rest hdig
    rcases hs with rfl | rfl | rfl
    · rw [List.nil_append, hrun]
      simp
    · rw [List.append_assoc, List.singleton_append, scanFloat]
      simp only [decide_True, Bool.true_or, Bool.and_self, if_true]
      rw [hrun]
      simp
    · rw [List.append_assoc, List.singleton_append, scanFloat]
      simp only [decide_True, Bool.or_true, Bool.and_self, if_true]
      rw [hrun]
      simp

/-- The main loop stops where the text of the numeral ends. -/
theorem scanFloat_stop_gen (n : Numeral) (hn : n.Shaped) (rest : List Char)
    (hstop : n.stopsAt rest) : scanFloat rest n.sciAcc = (rest, n.sciAcc) := by
  cases rest with
  | nil => rfl
  | cons c cs =>
    obtain ⟨h1, h2, h3, h4⟩ := hstop c rfl
    rw [scanFloat, Numeral.sciAcc_eq n hn]
    have hA : ((match n.exp with
        | none => false
        | some x => decide (x.2.1 = []) && x.2.2.isEmpty)
          && (decide (c = '+') || decide (c = '-'))) = false := by
      cases hx : n.exp with
      | none => rfl
      | some x =>
        by_cases hc : c = '+' ∨ c = '-'
        · have := (h4 hc).2 x hx
          by_cases hs : x.2.1 = []
          · have hd : x.2.2 ≠ [] := fun hd => this hs hd
            have he : x.2.2.isEmpty = false := by
              cases hd2 : x.2.2 with
              | nil => exact absurd hd2 hd
              | cons a l => rfl
            simp [he]
          · simp [hs]
        · have h5 : c ≠ '+' := fun h => hc (Or.inl h)
          have h6 : c ≠ '-' := fun h => hc (Or.inr h)
          simp [h5, h6]
    have hB : (decide (c = '.') && !n.frac.isSome && !n.exp.isSome) = false := by
      by_cases hc : c = '.'
      · rcases h2 hc with h | h <;> simp [h]
      · simp [hc]
    have hC : ((decide (c = 'e') || decide (c = 'E')) && !n.exp.isSome
        && !(n.intDigits ++ n.fracDigits).isEmpty) = false := by
      by_cases hc : c = 'e' ∨ c = 'E'
      · rcases h3 hc with h | h
        · simp [h]
        · rw [h]; simp
      · have h5 : c ≠ 'e' := fun h => hc (Or.inl h)
        have h6 : c ≠ 'E' := fun h => hc (Or.inr h)
        simp [h5, h6]
    simp only [hA, h1, hB, hC, Bool.false_eq_true, if_false]

/-- Shaped numerals: the scanner reads the whole text and stops at the rest. -/
theorem scanSigned_shaped (n : Numeral) (hn : n.Shaped) (rest : List Char)
    (hstop : n.stopsAt rest) :
    scanSigned (n.text ++ rest) = (rest, n.sciAcc) := by
  have hs := hn
  obtain ⟨hsign, hint, hfrac, hexp⟩ := hn
  have htext : n.text ++ rest
      = n.sign ++ n.intDigits ++ (n.fracText ++ (n.expText ++ rest)) := by
    simp [Numeral.text, List.append_assoc]
  have hu1 : ∀ c, (n.fracText ++ (n.expText ++ rest)).head? = some c → isdigit c = false := by
    intro c hc
    unfold Numeral.fracText at hc
    cases hf : n.frac with
    | some f =>
      rw [hf] at hc
      simp only [List.cons_append, List.head?_cons, Option.some.injEq] at hc
      subst hc; decide
    | none =>
      rw [hf] at hc
      simp only [List.nil_append] at hc
      unfold Numeral.expText at hc
      cases hx : n.exp with
      | some x =>
        rw [hx] at hc
        simp only [List.cons_append, List.head?_cons, Option.some.injEq] at hc
        subst hc
        rcases (hexp x hx).2.1 with h | h <;> rw [h] <;> decide
      | none =>
        rw [hx] at hc
        exact (hstop c (by simpa using hc)).1
  have hu2 : n.sign = [] → n.intDigits = [] →
      ∀ c, (n.fracText ++ (n.expText ++ rest)).head? = some c → c ≠ '+' ∧ c ≠ '-' := by
    intro hsg hi c hc
    unfold Numeral.fracText at hc
    cases hf : n.frac with
    | some f =>
      rw [hf] at hc
      simp only [List.cons_append, List.head?_cons, Option.some.injEq] at hc
      subst hc; decide
    | none =>
      rw [hf] at hc
      simp only [List.nil_append] at hc
      unfold Numeral.expText at hc
      cases hx : n.exp with
      | some x =>
        exfalso
        apply (hexp x hx).1
        simp [hi, Numeral.fracDigits, hf]
      | none =>
        rw [hx] at hc
        have h4 := (hstop c (by simpa using hc)).2.2.2
        refine ⟨?_, ?_⟩
        · intro h
          exact (h4 (Or.inl h)).1 hsg hi hf
        · intro h
          exact (h4 (Or.inr h)).1 hsg hi hf
  rw [htext, scanSigned_int_gen n hsign hint _ hu1 hu2, scanFloat_frac_gen n hfrac,
    scanFloat_exp_gen n hs]
  exact scanFloat_stop_gen n hs rest hstop

/-- The conversion succeeds exactly on complete numerals, with the double they denote. -/
theorem Numeral.sciAcc_convert (n : Numeral) (hn : n.Shaped) :
    (n.Complete → n.sciAcc.convert = some n.toDouble)
    ∧ (¬ n.Complete → n.sciAcc.convert = none) := by
  rw [Numeral.sciAcc_eq n hn]
  unfold FloatAcc.convert Numeral.toDouble Numeral.expValue Numeral.Complete
  refine ⟨?_, ?_⟩
  · rintro ⟨hne, hd⟩
    have hm : (n.intDigits ++ n.fracDigits).isEmpty = false := by
      cases h : n.intDigits ++ n.fracDigits with
      | nil => exact absurd h hne
      | cons a l => rfl
    cases hx : n.exp with
    | none => simp [hm]
    | some x =>
      have hx2 : x.2.2.isEmpty = false := by
        cases h : x.2.2 with
        | nil => exact absurd h (hd x hx)
        | cons a l => rfl
      simp [hm, hx2, signedValue]
  · intro hc
    by_cases hne : n.intDigits ++ n.fracDigits = []
    · simp [hne]
    · have hex : ∃ x, n.exp = some x ∧ x.2.2 = [] := by
        by_contra hno
        apply hc
        refine ⟨hne, ?_⟩
        intro x hx hd
        exact hno ⟨x, hx, hd⟩
      obtain ⟨x, hx, hd⟩ := hex
      simp [hx, hd]

/-- Every text splits into its longest run of leading digits and a rest. -/
theorem digits_split (s : List Char) :
    ∃ ds u, s = ds ++ u ∧ (∀ c ∈ ds, isdigit c = true)
      ∧ (∀ c, u.head? = some c → isdigit c = false) := by
  induction s with
  | nil => exact ⟨[], [], rfl, by simp, by simp⟩
  | cons a s ih =>
    by_cases ha : isdigit a = true
    · obtain ⟨ds, u, h1, h2, h3⟩ := ih
      refine ⟨a :: ds, u, by rw [h1]; rfl, ?_, h3⟩
      intro c hc
      rcases List.mem_cons.1 hc with rfl | hc
      · exact ha
      · exact h2 c hc
    · refine ⟨[], a :: s, rfl, by simp, ?_⟩
      intro c hc
      simp only [List.head?_cons, Option.some.injEq] at hc
      subst hc
      simpa using ha

/-- Every text splits into an optional sign and a rest. -/
theorem sign_split (t : List Char) :
    ∃ sg t1, t = sg ++ t1 ∧ (sg = [] ∨ sg = ['+'] ∨ sg = ['-'])
      ∧ (sg = [] → ∀ c, t1.head? = some c → c ≠ '+' ∧ c ≠ '-') := by
  cases t with
  | nil => exact ⟨[], [], rfl, Or.inl rfl, by simp⟩
  | cons a t =>
    by_cases hp : a = '+'
    · subst hp
      exact ⟨['+'], t, rfl, Or.inr (Or.inl rfl), by simp⟩
    · by_cases hm : a = '-'
      · subst hm
        exact ⟨['-'], t, rfl, Or.inr (Or.inr rfl), by simp⟩
      · refine ⟨[], a :: t, rfl, Or.inl rfl, ?_⟩
        intro _ c hc
        simp only [List.head?_cons, Option.some.injEq] at hc
        subst hc
        exact ⟨hp, hm⟩

/-- Every text starts with the text of a shaped numeral at whose end the scanner stops. -/
theorem exists_shaped (t : List Char) :
    ∃ (n : Numeral) (rest : List Char), t = n.text ++ rest ∧ n.Shaped ∧ n.stopsAt rest := by
  obtain ⟨sg, t1, ht, hsg, hsg2⟩ := sign_split t
  obtain ⟨int, u, ht1, hint, hu⟩ := digits_split t1
  -- the fraction
  have hfrac : ∃ (frac : Option (List Char)) (w : List Char),
      u = (match frac with | none => [] | some f => '.' :: f) ++ w
      ∧ (∀ c ∈ frac.getD [], isdigit c = true)
      ∧ (∀ c, w.head? = some c → isdigit c = false)
      ∧ (frac = none → w = u ∧ ∀ c, w.head? = some c → c ≠ '.') := by
    cases u with
    | nil => exact ⟨none, [], rfl, by simp, by simp, by simp⟩
    | cons a v =>
      by_cases ha : a = '.'
      · subst ha
        obtain ⟨f, w, hv, hf, hw⟩ := digits_split v
        exact ⟨some f, w, by rw [hv]; rfl, by simpa using hf, hw, by simp⟩
      · refine ⟨none, a :: v, rfl, by simp, hu, ?_⟩
        intro _
        refine ⟨rfl, ?_⟩
        intro c hc
        simp only [List.head?_cons, Option.some.injEq] at hc
        subst hc
        exact ha
  obtain ⟨frac, w, hu2, hfd, hw, hfn⟩ := hfrac
  have htext : ∀ (e : Option (Char × List Char × List Char)) (rest : List Char),
      w = (match e with | none => [] | some x => x.1 :: (x.2.1 ++ x.2.2)) ++ rest →
      t = (Numeral.mk sg int frac e).text ++ rest := by
    intro e rest hwe
    rw [ht, ht1, hu2, hwe]
    simp only [Numeral.text, Numeral.fracText, Numeral.expText, List.append_assoc]
  by_cases hmant : int ++ frac.getD [] = []
  · -- no mantissa digit: no exponent is read
    refine ⟨⟨sg, int, frac, none⟩, w, htext none w rfl, ⟨hsg, hint, hfd, by simp⟩, ?_⟩
    intro c hc
    refine ⟨hw c hc, ?_, ?_, ?_⟩
    · intro hdot
      cases hfr : frac with
      | some f => simp
      | none =>
        exfalso
        exact (hfn hfr).2 c hc hdot
    · intro _
      right
      exact hmant
    · intro hsgn
      refine ⟨?_, by simp⟩
      intro h1 h2 h3
      simp only at h1 h2 h3
      have hw2 := (hfn h3).1
      have : t1.head? = some c := by
        rw [ht1, h2, List.nil_append, ← hw2]; exact hc
      have := hsg2 h1 c this
      rcases hsgn with h | h
      · exact this.1 h
      · exact this.2 h
  · -- a mantissa digit: an exponent letter starts an exponent
    have hnoexp : (∀ c, w.head? = some c → c ≠ 'e' ∧ c ≠ 'E') →
        ∃ (n : Numeral) (rest : List Char), t = n.text ++ rest ∧ n.Shaped ∧ n.stopsAt rest := by
      intro hne
      refine ⟨⟨sg, int, frac, none⟩, w, htext none w rfl, ⟨hsg, hint, hfd, by simp⟩, ?_⟩
      intro c hc
      refine ⟨hw c hc, ?_, ?_, ?_⟩
      · intro hdot
        cases hfr : frac with
        | some f => simp
        | none =>
          exfalso
          exact (hfn hfr).2 c hc hdot
      · intro hE
        exfalso
        rcases hE with h | h
        · exact (hne c hc).1 h
        · exact (hne c hc).2 h
      · intro _
        refine ⟨?_, by simp⟩
        intro _ h2 h3
        simp only at h2 h3
        apply hmant
        rw [h2, h3]
        rfl
    cases hwc : w with
    | nil =>
      apply hnoexp
      intro c hc
      rw [hwc] at hc
      simp at hc
    | cons l x =>
      by_cases hl : l = 'e' ∨ l = 'E'
      · obtain ⟨sg2, x1, hx, hsg3, hsg4⟩ := sign_split x
        obtain ⟨d, z, hx1, hd, hz⟩ := digits_split x1
        refine ⟨⟨sg, int, frac, some (l, sg2, d)⟩, z,
          htext (some (l, sg2, d)) z (by
            rw [hwc, hx, hx1]
            simp only [List.cons_append, List.append_assoc]),
          ⟨hsg, hint, hfd, ?_⟩, ?_⟩
        · intro y hy
          simp only [Option.some.injEq] at hy
          subst hy
          exact ⟨hmant, hl, hsg3, hd⟩
        · intro c hc
          refine ⟨hz c hc, by simp, by simp, ?_⟩
          intro hsgn
          refine ⟨?_, ?_⟩
          · intro _ h2 h3
            simp only at h2 h3
            apply hmant
            rw [h2, h3]
            rfl
          · intro y hy h1 h2
            simp only [Option.some.injEq] at hy
            subst hy
            simp only at h1 h2
            have : x.head? = some c := by
              rw [hx, h1, List.nil_append, hx1, h2, List.nil_append]; exact hc
            have := hsg4 h1 c (by rw [hx1, h2, List.nil_append]; exact hc)
            rcases hsgn with h | h
            · exact this.1 h
            · exact this.2 h
      · apply hnoexp
        intro c hc
        rw [hwc] at hc
        simp only [List.head?_cons, Option.some.injEq] at hc
        subst hc
        exact ⟨fun h => hl (Or.inl h), fun h => hl (Or.inr h)⟩

/-- A well-formed numeral is shaped and complete. -/
theorem Numeral.WellFormed.shaped (n : Numeral) (hn : n.WellFormed) :
    n.Shaped ∧ n.Complete := by
  obtain ⟨h1, h2, h3, h4, h5⟩ := hn
  refine ⟨⟨h1, h2, h3, ?_⟩, h4, ?_⟩
  · intro x hx
    obtain ⟨a, b, c, _⟩ := h5 x hx
    exact ⟨h4, a, b, c⟩
  · intro x hx
    exact (h5 x hx).2.2.2

/-- A shaped and complete numeral is well formed. -/
theorem Numeral.wellFormed_of_shaped (n : Numeral) (hs : n.Shaped) (hc : n.Complete) :
    n.WellFormed := by
  obtain ⟨h1, h2, h3, h4⟩ := hs
  refine ⟨h1, h2, h3, hc.1, ?_⟩
  intro x hx
  obtain ⟨_, a, b, c⟩ := h4 x hx
  exact ⟨a, b, c, hc.2 x hx⟩

/-- For a well-formed numeral the scanner stops exactly where the numeral ends. -/
theorem Numeral.stopsAt_of_endsAt (n : Numeral) (hn : n.WellFormed) (rest : List Char)
    (h : n.endsAt rest) : n.stopsAt rest := by
  obtain ⟨_, _, _, hne, hexp⟩ := hn
  intro c hc
  obtain ⟨h1, h2, h3⟩ := h c hc
  refine ⟨h1, h2, fun hE => Or.inl (h3 hE), ?_⟩
  intro _
  refine ⟨?_, ?_⟩
  · intro _ hi hf
    apply hne
    simp [hi, Numeral.fracDigits, hf]
  · intro x hx _ hd
    exact (hexp x hx).2.2.2 hd

/-- Where the scanner stops after a complete numeral, the numeral ends. -/
theorem Numeral.endsAt_of_stopsAt (n : Numeral) (hc : n.Complete) (rest : List Char)
    (h : n.stopsAt rest) : n.endsAt rest := by
  intro c hcc
  obtain ⟨h1, h2, h3, _⟩ := h c hcc
  refine ⟨h1, h2, ?_⟩
  intro hE
  rcases h3 hE with h | h
  · exact h
  · exact absurd h hc.1

/-- A rest that starts with no digit, point or exponent letter ends every numeral. -/
theorem Numeral.endsAt_of_endsNumber (n : Numeral) (rest : List Char) (h : endsNumber rest) :
    n.endsAt rest := by
  intro c hc
  obtain ⟨h1, h2, h3, h4⟩ := h c hc
  refine ⟨h1, fun hd => absurd hd h2, ?_⟩
  intro hE
  rcases hE with hE | hE
  · exact absurd hE h3
  · exact absurd hE h4

/-- If the conversion succeeds, the scanner has read a well-formed numeral, the text goes on
with a rest that does not continue it, and the value is the double the numeral denotes. -/
theorem scanSigned_inversion (t : List Char) (v : Double)
    (h : (scanSigned t).2.convert = some v) :
    ∃ n : Numeral, n.WellFormed ∧ t = n.text ++ (scanSigned t).1
      ∧ n.endsAt (scanSigned t).1 ∧ v = n.toDouble := by
  obtain ⟨n, rest, ht, hs, hstop⟩ := exists_shaped t
  have hscan := scanSigned_shaped n hs rest hstop
  rw [← ht] at hscan
  rw [hscan] at h ⊢
  simp only at h ⊢
  by_cases hc : n.Complete
  · rw [(Numeral.sciAcc_convert n hs).1 hc] at h
    refine ⟨n, Numeral.wellFormed_of_shaped n hs hc, ht,
      Numeral.endsAt_of_stopsAt n hc rest hstop, ?_⟩
    exact (Option.some.inj h).symm
  · rw [(Numeral.sciAcc_convert n hs).2 hc] at h
    exact absurd h (by simp)

/-- The scanner on the text of a well-formed numeral followed by a rest that does not continue
it. -/
theorem scanSigned_endsAt (n : Numeral) (hn : n.WellFormed) (rest : List Char)
    (hrest : n.endsAt rest) :
    (scanSigned (n.text ++ rest)).1 = rest
    ∧ (scanSigned (n.text ++ rest)).2.convert = some n.toDouble := by
  obtain ⟨hs, hc⟩ := Numeral.WellFormed.shaped n hn
  rw [scanSigned_shaped n hs rest (Numeral.stopsAt_of_endsAt n hn rest hrest)]
  exact ⟨rfl, (Numeral.sciAcc_convert n hs).1 hc⟩

/-- The first character of what `dropWhile` leaves does not satisfy the test. -/
theorem head_dropWhile (p : Char → Bool) (l : List Char) :
    ∀ c, (l.dropWhile p).head? = some c → p c = false := by
  induction l with
  | nil => intro c hc; simp at hc
  | cons a l ih =>
    intro c hc
    by_cases ha : p a = true
    · rw [List.dropWhile_cons, if_pos ha] at hc
      exact ih c hc
    · rw [List.dropWhile_cons, if_neg ha] at hc
      simp only [List.head?_cons, Option.some.injEq] at hc
      subst hc
      simpa using ha

/-- The characters `takeWhile` keeps satisfy the test. -/
theorem mem_takeWhile (p : Char → Bool) (l : List Char) :
    ∀ c ∈ l.takeWhile p, p c = true := by
  induction l with
  | nil => intro c hc; simp at hc
  | cons a l ih =>
    intro c hc
    by_cases ha : p a = true
    · rw [List.takeWhile_cons, if_pos ha] at hc
      rcases List.mem_cons.1 hc with rfl | hc
      · exact ha
      · exact ih c hc
    · rw [List.takeWhile_cons, if_neg ha] at hc
      simp at hc

/-- If the extraction of a `double` from a stream without `failbit` succeeds, the stream was
good and held white space, a well-formed numeral that denotes a finite double, and a rest that
does not continue the numeral; the value is that double and the stream is left at the rest. -/
theorem extractDouble_inversion (b : List Char) (e : Bool) (ss : stringstream) (v : Double)
    (h : stringstream.extractDouble { buf := b, eofbit := e, failbit := false }
      = (ss, some v)) :
    e = false ∧ ∃ (n : Numeral) (rest : List Char),
      b = b.takeWhile isspace ++ n.text ++ rest
      ∧ n.WellFormed ∧ n.endsAt rest ∧ n.toDouble.isFinite = true ∧ v = n.toDouble
      ∧ ss = { buf := rest, eofbit := decide (rest = []), failbit := false } := by
  cases e with
  | true =>
    simp [stringstream.extractDouble, stringstream.sentry, stringstream.good] at h
  | false =>
    refine ⟨rfl, ?_⟩
    by_cases hd : b.dropWhile isspace = []
    · simp [stringstream.extractDouble, stringstream.sentry, stringstream.good, hd] at h
    · unfold stringstream.extractDouble stringstream.sentry stringstream.good at h
      simp only [Bool.not_false, Bool.and_self, Bool.not_true, Bool.false_eq_true, if_false,
        hd] at h
      cases hconv : (scanSigned (b.dropWhile isspace)).2.convert with
      | none =>
        rw [hconv] at h
        simp at h
      | some d =>
        rw [hconv] at h
        obtain ⟨n, hwf, ht, hends, hv⟩ := scanSigned_inversion _ d hconv
        cases d with
        | nan => simp at h
        | inf s => simp at h
        | fin s m x =>
          simp only [Prod.mk.injEq, Option.some.injEq] at h
          refine ⟨n, (scanSigned (b.dropWhile isspace)).1, ?_, hwf, hends, ?_, ?_, h.1.symm⟩
          · rw [List.append_assoc, ← ht, List.takeWhile_append_dropWhile]
          · rw [← hv]; rfl
          · rw [← hv]; exact h.2.symm

/-- If the extraction of a `std::string` from a stream without `failbit` yields the token `=`
and leaves the stream without `failbit`, the stream held white space, the character `=` and a
rest that is empty or starts with white space, and it is left at that rest. -/
theorem extractString_inversion (b : List Char) (e : Bool)
    (hf : (stringstream.extractString { buf := b, eofbit := e, failbit := false }).1.failbit
      = false)
    (ht : (stringstream.extractString { buf := b, eofbit := e, failbit := false }).2 = ['=']) :
    ∃ rest : List Char,
      b = b.takeWhile isspace ++ '=' :: rest
      ∧ (∀ c, rest.head? = some c → isspace c = true)
      ∧ (stringstream.extractString { buf := b, eofbit := e, failbit := false }).1
        = { buf := rest, eofbit := decide (rest = []), failbit := false } := by
  cases e with
  | true =>
    simp [stringstream.extractString, stringstream.sentry, stringstream.good] at hf
  | false =>
    by_cases hd : b.dropWhile isspace = []
    · simp [stringstream.extractString, stringstream.sentry, stringstream.good, hd] at hf
    · unfold stringstream.extractString stringstream.sentry stringstream.good at ht hf ⊢
      simp only [Bool.not_false, Bool.and_self, Bool.not_true, Bool.false_eq_true, if_false,
        hd] at ht hf ⊢
      have hsplit := List.takeWhile_append_dropWhile (fun c => !isspace c)
        (b.dropWhile isspace)
      rw [ht] at hsplit
      refine ⟨(b.dropWhile isspace).dropWhile (fun c => !isspace c), ?_, ?_, ?_⟩
      · have := List.takeWhile_append_dropWhile isspace b
        rw [← hsplit] at this
        simpa using this.symm
      · intro c hc
        have := head_dropWhile (fun c => !isspace c) _ c hc
        simpa using this
      · rw [ht]
        simp

/-- Extraction of a `double` from a good stream that holds white space, a well-formed numeral
that denotes a finite double, and a rest that does not continue the numeral. -/
theorem extractDouble_endsAt (ws : List Char) (n : Numeral) (rest : List Char)
    (hws : ∀ c ∈ ws, isspace c = true) (hn : n.WellFormed) (hrest : n.endsAt rest)
    (hfin : n.toDouble.isFinite = true) :
    stringstream.extractDouble { buf := ws ++ n.text ++ rest, eofbit := false, failbit := false }
      = ({ buf := rest, eofbit := decide (rest = []), failbit := false },
         some n.toDouble) := by
  obtain ⟨c0, cs0, htext, hc0⟩ := Numeral.text_head n hn
  have hc0s := number_start_char c0 hc0
  have hdrop : (ws ++ n.text ++ rest).dropWhile isspace = n.text ++ rest := by
    rw [List.append_assoc]
    apply dropWhile_isspace_append ws _ hws
    intro c hc
    rw [htext] at hc
    simp only [List.cons_append, List.head?_cons, Option.some.injEq] at hc
    subst hc
    exact hc0s.1
  have hnn : n.text ++ rest ≠ [] := by rw [htext]; simp
  obtain ⟨hs1, hs2⟩ := scanSigned_endsAt n hn rest hrest
  unfold stringstream.extractDouble stringstream.sentry stringstream.good
  simp only [Bool.not_false, Bool.and_self, Bool.not_true, Bool.false_eq_true, if_false, hdrop,
    hnn, hs1, hs2]
  cases hv : n.toDouble with
  | nan => rw [hv] at hfin; simp [Double.isFinite] at hfin
  | inf neg => rw [hv] at hfin; simp [Double.isFinite] at hfin
  | fin neg m e => rfl

/-- The loop body of `loadCalibrationData` on a point line appends the point of the line and
writes no message. -/
theorem loadCalibrationLine_isPointLine (line : List Char) (p : CalibrationData)
    (h : IsPointLine line p) (calibrations : List CalibrationData) (log : List Diag) :
    loadCalibrationLine line calibrations log = (calibrations ++ [p], log) := by
  obtain ⟨ws0, ws1, ws2, tail, chan, en, hl, h0, h1, h2, h2ne, hchan, hen, hcf, hef, htail,
    hp⟩ := h
  subst hl hp
  have hline : ws0 ++ chan.text ++ ws1 ++ ['='] ++ ws2 ++ en.text ++ tail
      = ws0 ++ chan.text ++ (ws1 ++ ['='] ++ (ws2 ++ en.text ++ tail)) := by
    simp only [List.append_assoc]
  obtain ⟨c0, cs0, htext, hc0⟩ := Numeral.text_head chan hchan
  have hc0s := number_start_char c0 hc0
  have hempty : (ws0 ++ chan.text ++ (ws1 ++ ['='] ++ (ws2 ++ en.text ++ tail))).isEmpty
      = false := by
    rw [htext]; cases ws0 <;> rfl
  have hhash : (ws0 ++ chan.text ++ (ws1 ++ ['='] ++ (ws2 ++ en.text ++ tail))).head?
      ≠ some '#' := by
    rw [htext]
    cases ws0 with
    | nil =>
      simp only [List.nil_append, List.cons_append, List.head?_cons, ne_eq, Option.some.injEq]
      exact hc0s.2
    | cons w ws =>
      simp only [List.cons_append, List.head?_cons, ne_eq, Option.some.injEq]
      exact isspace_ne_hash w (h0 w (List.mem_cons_self _ _))
  have hr2 : ∀ c, (ws2 ++ en.text ++ tail).head? = some c → isspace c = true := by
    intro c hc
    cases ws2 with
    | nil => exact absurd rfl h2ne
    | cons w ws =>
      simp only [List.cons_append, List.head?_cons, Option.some.injEq] at hc
      subst hc
      exact h2 _ (List.mem_cons_self _ _)
  have hr2ne : ws2 ++ en.text ++ tail ≠ [] := by
    cases ws2 with
    | nil => exact absurd rfl h2ne
    | cons w ws => simp
  have hr1 : endsNumber (ws1 ++ ['='] ++ (ws2 ++ en.text ++ tail)) := by
    apply endsNumber_of_space_or_equals
    intro c hc
    cases ws1 with
    | nil =>
      simp only [List.nil_append, List.cons_append, List.head?_cons, Option.some.injEq] at hc
      exact Or.inr hc.symm
    | cons w ws =>
      simp only [List.cons_append, List.head?_cons, Option.some.injEq] at hc
      subst hc
      exact Or.inl (h1 _ (List.mem_cons_self _ _))
  have hr1ne : ws1 ++ ['='] ++ (ws2 ++ en.text ++ tail) ≠ [] := by simp
  have e1 := extractDouble_endsAt ws0 chan _ h0 hchan
    (Numeral.endsAt_of_endsNumber chan _ hr1) hcf
  have e2 := extractString_token ws1 ['='] (ws2 ++ en.text ++ tail) h1
    (by intro c hc; rw [List.mem_singleton.1 hc]; decide) (by simp) hr2
  have e3 := extractDouble_endsAt ws2 en tail h2 hen htail hef
  simp only [hr1ne, hr2ne, decide_False] at e1 e2 e3
  have hEq : "=".toList = ['='] := rfl
  rw [hline]
  unfold loadCalibrationLine
  simp only [hempty, hhash, Bool.false_or, decide_False, Bool.false_eq_true, if_false,
    stringstream.init, e1, e2, e3, hEq, Bool.not_false, Bool.true_and, decide_True, if_true]

/-- The loop body of `loadCalibrationData` leaves the calibration list as it is on every line
that is not a point line. -/
theorem loadCalibrationLine_not_pointLine (line : List Char)
    (calibrations : List CalibrationData) (log : List Diag) :
    (loadCalibrationLine line calibrations log).1 = calibrations
    ∨ ∃ p, IsPointLine line p := by
  unfold loadCalibrationLine
  split
  · exact Or.inl rfl
  · simp only []
    cases hx : (stringstream.init line).extractDouble with
    | mk ss1 o =>
      cases o with
      | none => exact Or.inl rfl
      | some ch =>
        unfold stringstream.init at hx
        obtain ⟨_, chan, rest1, hline, hwf1, _, hfin1, hv1, hss1⟩ :=
          extractDouble_inversion line false ss1 ch hx
        subst hss1
        simp only []
        by_cases hcond : (!(stringstream.extractString
              { buf := rest1, eofbit := decide (rest1 = []), failbit := false }).1.failbit
            && decide ((stringstream.extractString
              { buf := rest1, eofbit := decide (rest1 = []), failbit := false }).2
                = "=".toList)) = true
        · rw [if_pos hcond]
          simp only [Bool.and_eq_true, Bool.not_eq_true', decide_eq_true_eq] at hcond
          obtain ⟨rest2, hrest1, hsp, hr⟩ :=
            extractString_inversion rest1 (decide (rest1 = [])) hcond.1 hcond.2
          rw [hr]
          cases hy : stringstream.extractDouble
              { buf := rest2, eofbit := decide (rest2 = []), failbit := false } with
          | mk ss3 o2 =>
            cases o2 with
            | none => exact Or.inl rfl
            | some e =>
              right
              obtain ⟨he, en, tail, hrest2, hwf2, hends2, hfin2, hv2, _⟩ :=
                extractDouble_inversion rest2 (decide (rest2 = [])) ss3 e hy
              have h0 := mem_takeWhile isspace line
              have h1 := mem_takeWhile isspace rest1
              have h2 := mem_takeWhile isspace rest2
              have h2ne : rest2.takeWhile isspace ≠ [] := by
                cases rest2 with
                | nil => simp at he
                | cons c cs =>
                  have hc : isspace c = true := hsp c rfl
                  simp [List.takeWhile_cons, hc]
              generalize List.takeWhile isspace line = ws0 at hline h0
              generalize List.takeWhile isspace rest1 = ws1 at hrest1 h1
              generalize List.takeWhile isspace rest2 = ws2 at hrest2 h2 h2ne
              refine ⟨{ channel := ch, energy := e }, ws0, ws1, ws2, tail, chan, en, ?_, h0, h1,
                h2, h2ne, hwf1, hwf2, hfin1, hfin2, hends2, ?_⟩
              · rw [hline, hrest1, hrest2]
                simp only [List.append_assoc, List.cons_append, List.nil_append]
              · rw [hv1, hv2]
        · rw [if_neg hcond]
          exact Or.inl rfl

/-- A line of one of the malformed kinds is not a point line. -/
theorem MalformedLine.not_pointLine (line : List Char) (h : MalformedLine line) :
    ¬ ∃ p, IsPointLine line p := by
  rintro ⟨p, hp⟩
  have h1 := loadCalibrationLine_malformed line h [] []
  rw [loadCalibrationLine_isPointLine line p hp [] []] at h1
  simp at h1

/-- C9 (amended): on a readable calibration file `loadCalibrationData` returns true whatever the
lines hold, and a line is skipped exactly when it is not a point line, that is, not of the form
optional white space, a numeral, optional white space, the character `=`, at least one
white-space character, a numeral, and a rest that does not continue the second numeral, with both
numerals denoting finite doubles. For a line that is not a point line no point is appended and
the remaining lines are processed, so the loaded points are those of the file without that line.
This covers the lines whose channel is no number, whose token after the channel is not `=`
(missing, or glued to the energy) or whose energy is no number. A point line appends its point,
also when other characters follow the energy value or when `=` is glued to the channel. -/
theorem calibration_line_skipped_iff (pre post : List (List Char)) (line : List Char)
    (calibrations : List CalibrationData) :
    (loadCalibrationData (some (pre ++ line :: post)) calibrations).1 = true
    ∧ ((¬ ∃ p, IsPointLine line p) →
        (loadCalibrationData (some (pre ++ line :: post)) calibrations).2.1
          = (loadCalibrationData (some (pre ++ post)) calibrations).2.1)
    ∧ (∀ p, IsPointLine line p →
        (loadCalibrationData (some (pre ++ line :: post)) calibrations).2.1
          = (loadCalibrationData (some post)
              ((loadCalibrationData (some pre) calibrations).2.1 ++ [p])).2.1)
    ∧ (MalformedLine line → ¬ ∃ p, IsPointLine line p) := by
  refine ⟨rfl, ?_, ?_, MalformedLine.not_pointLine line⟩
  · intro hnot
    simp only [loadCalibrationData_some]
    rw [loadCalibrationLoop_append, loadCalibrationLoop_append]
    simp only [loadCalibrationLoop]
    rcases loadCalibrationLine_not_pointLine line
      (loadCalibrationLoop pre calibrations []).1 (loadCalibrationLoop pre calibrations []).2
      with h | h
    · rw [h]
      exact loadCalibrationLoop_log post _ _ _
    · exact absurd h hnot
  · intro p hp
    simp only [loadCalibrationData_some]
    rw [loadCalibrationLoop_append]
    simp only [loadCalibrationLoop]
    rw [loadCalibrationLine_isPointLine line p hp]
    exact loadCalibrationLoop_log post _ _ _

set_option maxRecDepth 8000 in
/-- Witness for C9 (amended): the line `abc = 5` is no point line and is skipped between two
good lines; the line `100 = 5.9 keV` is a point line and appends the point (100, 5.9). -/
theorem calibration_line_skipped_iff_witness :
    (¬ ∃ p, IsPointLine "abc = 5".toList p)
    ∧ (loadCalibrationData (some (["1 = 2".toList] ++ "abc = 5".toList :: ["3 = 4".toList]))
        []).2.1
      = [{ channel := Double.ofInt 1, energy := Double.ofInt 2 },
         { channel := Double.ofInt 3, energy := Double.ofInt 4 }]
    ∧ IsPointLine "100 = 5.9 keV".toList
        { channel := Double.ofInt 100, energy := Double.round false 59 10 0 }
    ∧ (loadCalibrationData
        (some (["1 = 2".toList] ++ "100 = 5.9 keV".toList :: ["3 = 4".toList])) []).2.1
      = [{ channel := Double.ofInt 1, energy := Double.ofInt 2 },
         { channel := Double.ofInt 100, energy := Double.round false 59 10 0 },
         { channel := Double.ofInt 3, energy := Double.ofInt 4 }] := by
  have hm : MalformedLine "abc = 5".toList :=
    MalformedLine.channel [] "abc = 5".toList (by decide)
      (by intro c hc; simp at hc; subst hc; decide)
      (by intro c hc; simp at hc; subst hc; decide)
  have h := calibration_line_skipped_iff ["1 = 2".toList] ["3 = 4".toList] "abc = 5".toList []
  have hnot := h.2.2.2 hm
  have hp : IsPointLine "100 = 5.9 keV".toList
      { channel := Double.ofInt 100, energy := Double.round false 59 10 0 } :=
    ⟨[], " ".toList, " ".toList, " keV".toList, ⟨[], "100".toList, none, none⟩,
      ⟨[], "5".toList, some "9".toList, none⟩, by decide, by decide, by decide, by decide,
      by decide,
      ⟨Or.inl rfl, by decide, by decide, by decide, by intro x hx; simp at hx⟩,
      ⟨Or.inl rfl, by decide, by decide, by decide, by intro x hx; simp at hx⟩,
      by decide, by decide,
      by intro c hc; simp at hc; subst hc; decide,
      by decide⟩
  have h2 := (calibration_line_skipped_iff ["1 = 2".toList] ["3 = 4".toList]
    "100 = 5.9 keV".toList []).2.2.1 _ hp
  refine ⟨hnot, ?_, hp, ?_⟩
  · rw [h.2.1 hnot]
    decide
  · rw [h2]
    decide

set_option maxRecDepth 8000 in
/-- C9 (counterexample): the line `100 = 5.9 keV`, with extra characters after the energy value,
is not skipped but appends the point (100, 5.9); so does `100= 5.9`, where the equals sign is
glued to the channel. -/
theorem trailing_text_is_accepted :
    (loadCalibrationData (some ["100 = 5.9 keV".toList]) []).2.1
      = [{ channel := Double.ofInt 100, energy := Double.round false 59 10 0 }]
    ∧ (loadCalibrationData (some ["100= 5.9".toList]) []).2.1
      = [{ channel := Double.ofInt 100, energy := Double.round false 59 10 0 }] := by
  decide

end MCA
